import Mathlib

/-!
# P2P content-sharing network: index registry (index.c) and peer content transport (peer.c)

A shallow embedding of the registry's catalog operations and of the peer's
chunk-frame streaming protocol, followed by theorems about them.

Conventions of the embedding

* a C `char` is a `Byte` (`Fin 256`); a `char[N]` array is a `List Byte` of length `N`;
* a C `int` is an `Int`; the only arithmetic on one is `used_count++`, modelled with
  explicit 32-bit two's-complement wrap-around (`wrap32`);
* the globals `table` and `entry_count` form the `Catalog` state, passed explicitly;
* `sendto` on the UDP socket is modelled by returning the datagram that is sent;
* `printf`/`perror` output is not modelled.
-/

namespace P2P

/-! ## Bytes, constants and C string primitives -/

abbrev Byte := Fin 256

def REGISTER : Byte := 82         -- 'R'
def DOWNLOAD : Byte := 68         -- 'D'
def SEARCH : Byte := 83           -- 'S'
def DEREGISTER : Byte := 84       -- 'T'
def ONLINE : Byte := 79           -- 'O'
def ACKNOWLEDGEMENT : Byte := 65  -- 'A'
def ERROR : Byte := 69            -- 'E'
def CONTENT : Byte := 67          -- 'C'
def QUIT : Byte := 81             -- 'Q'

def MAX_ENTRIES : Nat := 200
def NAME_LEN : Nat := 10
def CHUNK_SIZE : Nat := 1024

/-- The largest value of a C `int` (the constant `0x7fffffff` of `find_least_used`). -/
def INT_MAX : Int := 0x7fffffff

/-- Two's-complement wrap-around of a mathematical integer into the range of a 32-bit `int`. -/
def wrap32 (x : Int) : Int := (x + 2 ^ 31) % 2 ^ 32 - 2 ^ 31

/-- The bytes of a C string literal (without its terminating NUL). -/
def lit (s : String) : List Byte := s.toList.map (fun ch => Fin.ofNat ch.toNat)

/-- `memset(p, 0, n)`: an array of `n` zero bytes. -/
def zeros (n : Nat) : List Byte := List.replicate n 0

/-- The C string held in a character array: the bytes before the first NUL.
(If the array holds no NUL, C would read on past the array; the model stops at its end.) -/
def cstr (a : List Byte) : List Byte := a.takeWhile (fun b => b ≠ 0)

/-- `strlen`. -/
def strlen (a : List Byte) : Nat := (cstr a).length

/-- `strncmp(a, b, n)`: compares at most `n` characters, stopping after a NUL;
the result is `0` exactly when no difference was found. -/
def strncmp : List Byte → List Byte → Nat → Int
  | _, _, 0 => 0
  | a, b, n + 1 =>
    let x := a.headD 0
    let y := b.headD 0
    if x ≠ y then (x.val : Int) - (y.val : Int)
    else if x = 0 then 0
    else strncmp a.tail b.tail n

/-- `strncpy(dst, src, n)`: the first `n` bytes of `dst` become the characters of `src`
up to its first NUL (at most `n` of them), padded with NULs; the rest of `dst` is kept. -/
def strncpy (dst src : List Byte) (n : Nat) : List Byte :=
  let s := cstr (src.take n)
  s ++ zeros (n - s.length) ++ dst.drop n

/-- `strncat(dst, src, n)` on the C string held in `dst`: appends at most `n` characters
of the C string `src`. The destination is represented by its string content. -/
def strncat (dst src : List Byte) (n : Nat) : List Byte :=
  dst ++ (cstr src).take n

/-! ## Wire records and catalog (index.c) -/

/-- The `struct sockaddr_in` carried in a record; it is only ever copied as a whole. -/
structure sockaddr_in where
  sin_family : Nat
  sin_port : Nat
  sin_addr : Nat
  deriving DecidableEq, Repr

/-- The `struct register_pdu`. -/
structure register_pdu where
  type : Byte
  peerName : List Byte
  contentName : List Byte
  addr : sockaddr_in
  padding : List Byte
  deriving DecidableEq, Repr

/-- The `struct simple_pdu`. -/
structure simple_pdu where
  type : Byte
  data : List Byte
  deriving DecidableEq, Repr

/-- The `content_entry` of the registry table. -/
structure content_entry where
  peerName : List Byte
  contentName : List Byte
  addr : sockaddr_in
  used_count : Int
  active : Int
  deriving DecidableEq, Repr

/-- A zero-initialised `sockaddr_in`. -/
def sockaddr_in.zero : sockaddr_in := ⟨0, 0, 0⟩

/-- A zero-initialised table slot (C static storage). -/
def content_entry.zero : content_entry :=
  { peerName := zeros NAME_LEN, contentName := zeros NAME_LEN, addr := sockaddr_in.zero,
    used_count := 0, active := 0 }

/-- The registry state: the globals `table` and `entry_count`. -/
structure Catalog where
  table : List content_entry
  entry_count : Nat
  deriving DecidableEq, Repr

/-- The state at program start: 200 zeroed slots, `entry_count = 0`. -/
def Catalog.empty : Catalog :=
  { table := List.replicate MAX_ENTRIES content_entry.zero, entry_count := 0 }

/-- Read of `table[i]`. -/
def Catalog.entry (c : Catalog) (i : Nat) : content_entry := c.table.getD i content_entry.zero

/-- A datagram sent by the registry: a `simple_pdu` or a `register_pdu`. -/
inductive Datagram where
  | simple (sp : simple_pdu)
  | record (rp : register_pdu)
  deriving DecidableEq, Repr

/-- The record built by `send_simple`: zeroed, typed, with `msg` copied into `data`
by `strncpy(sp.data, msg, sizeof(sp.data)-1)`. -/
def send_simple (type : Byte) (msg : List Byte) : simple_pdu :=
  { type := type, data := strncpy (zeros 100) msg (100 - 1) }

/-- One iteration of the loop of `find_least_used` on the pair `(best, best_count)`. -/
def find_least_used_step (c : Catalog) (content : List Byte) (st : Int × Int) (i : Nat) :
    Int × Int :=
  if (c.entry i).active = 0 then st
  else if strncmp (c.entry i).contentName content NAME_LEN = 0 then
    if (c.entry i).used_count < st.2 then ((i : Int), (c.entry i).used_count) else st
  else st

/-- The function `find_least_used`: index of the selected entry, or `-1`. -/
def find_least_used (c : Catalog) (content : List Byte) : Int :=
  ((List.range c.entry_count).foldl (find_least_used_step c content) (-1, INT_MAX)).1

/-- The loop of `find_exact` over the remaining indices. -/
def find_exact_loop (c : Catalog) (peerName contentName : List Byte) : List Nat → Int
  | [] => -1
  | i :: rest =>
    if (c.entry i).active = 0 then find_exact_loop c peerName contentName rest
    else if strncmp (c.entry i).peerName peerName NAME_LEN = 0 ∧
        strncmp (c.entry i).contentName contentName NAME_LEN = 0 then (i : Int)
    else find_exact_loop c peerName contentName rest

/-- The function `find_exact`: lowest index of an active entry matching both names, or `-1`. -/
def find_exact (c : Catalog) (peerName contentName : List Byte) : Int :=
  find_exact_loop c peerName contentName (List.range c.entry_count)

/-- The function `handle_register`. -/
def handle_register (c : Catalog) (rpdu : register_pdu) : Catalog × Datagram :=
  if find_exact c rpdu.peerName rpdu.contentName ≠ -1 then
    (c, .simple (send_simple ERROR (lit "Duplicate registration")))
  else if c.entry_count ≥ MAX_ENTRIES then
    (c, .simple (send_simple ERROR (lit "Server storage full")))
  else
    let e := c.entry c.entry_count
    let e1 : content_entry :=
      { peerName := strncpy e.peerName rpdu.peerName (NAME_LEN - 1),
        contentName := strncpy e.contentName rpdu.contentName (NAME_LEN - 1),
        addr := rpdu.addr,
        used_count := 0,
        active := 1 }
    ({ table := c.table.set c.entry_count e1, entry_count := c.entry_count + 1 },
      .simple (send_simple ACKNOWLEDGEMENT (lit "Registered")))

/-- One iteration of the loop of `handle_online` on the listing buffer `buf[1024]`. -/
def handle_online_step (c : Catalog) (buf : List Byte) (i : Nat) : List Byte :=
  if (c.entry i).active = 0 then buf
  else
    let b1 := strncat buf (c.entry i).contentName (1024 - strlen buf - 2)
    let b2 := strncat b1 (lit " (by ") (1024 - strlen b1 - 2)
    let b3 := strncat b2 (c.entry i).peerName (1024 - strlen b2 - 2)
    strncat b3 (lit ")\n") (1024 - strlen b3 - 2)

/-- The listing buffer of `handle_online` after its loop. -/
def handle_online_buf (c : Catalog) : List Byte :=
  (List.range c.entry_count).foldl (handle_online_step c) []

/-- The function `handle_online`. -/
def handle_online (c : Catalog) : Catalog × Datagram :=
  let buf := handle_online_buf c
  (c, .simple (send_simple ONLINE (if strlen buf ≠ 0 then buf else lit "No content registered")))

/-- The function `handle_search`. -/
def handle_search (c : Catalog) (rpdu : register_pdu) : Catalog × Datagram :=
  let idx := find_least_used c rpdu.contentName
  if idx = -1 then
    (c, .simple (send_simple ERROR (lit "Content not found")))
  else
    let e := c.entry idx.toNat
    let resp : register_pdu :=
      { type := SEARCH,
        peerName := strncpy (zeros NAME_LEN) e.peerName (NAME_LEN - 1),
        contentName := strncpy (zeros NAME_LEN) e.contentName (NAME_LEN - 1),
        addr := e.addr,
        padding := zeros 16 }
    ({ c with table := c.table.set idx.toNat { e with used_count := wrap32 (e.used_count + 1) } },
      .record resp)

/-- The function `handle_deregister`. -/
def handle_deregister (c : Catalog) (rpdu : register_pdu) : Catalog × Datagram :=
  let idx := find_exact c rpdu.peerName rpdu.contentName
  if idx = -1 then
    (c, .simple (send_simple ERROR (lit "No such registration")))
  else
    ({ c with table := c.table.set idx.toNat { c.entry idx.toNat with active := 0 } },
      .simple (send_simple ACKNOWLEDGEMENT (lit "Deregistered")))

/-- One iteration of the loop of `handle_quit` on the table. -/
def handle_quit_step (peerName : List Byte) (t : List content_entry) (i : Nat) :
    List content_entry :=
  let e := t.getD i content_entry.zero
  if e.active ≠ 0 ∧ strncmp e.peerName peerName NAME_LEN = 0 then
    t.set i { e with active := 0 }
  else t

/-- The function `handle_quit`. -/
def handle_quit (c : Catalog) (rpdu : register_pdu) : Catalog × Datagram :=
  ({ c with table := (List.range c.entry_count).foldl (handle_quit_step rpdu.peerName) c.table },
    .simple (send_simple ACKNOWLEDGEMENT (lit "Quit")))

/-- The `switch` of the registry's main loop on a received record. -/
def dispatch (c : Catalog) (rpdu : register_pdu) : Catalog × Datagram :=
  if rpdu.type = REGISTER then handle_register c rpdu
  else if rpdu.type = ONLINE then handle_online c
  else if rpdu.type = SEARCH then handle_search c rpdu
  else if rpdu.type = DEREGISTER then handle_deregister c rpdu
  else if rpdu.type = QUIT then handle_quit c rpdu
  else (c, .simple (send_simple ERROR (lit "Unknown request")))

/-- A request record of kind `ty` with the given name fields. -/
def mkReq (ty : Byte) (peer content : List Byte) : register_pdu :=
  { type := ty, peerName := peer, contentName := content, addr := sockaddr_in.zero,
    padding := zeros 16 }

/-- Processing a sequence of Register requests with `handle_register`, in order. -/
def registerAll (c : Catalog) (rs : List register_pdu) : Catalog :=
  rs.foldl (fun st r => (handle_register st r).1) c

/-- A ten-byte name field: the characters of `s` followed by NUL padding. -/
def name10 (s : String) : List Byte := strncpy (zeros NAME_LEN) (lit s) NAME_LEN

/-- Two name fields hold the same name: their C strings, read within the ten bytes of the
field, are equal. -/
def sameName (a b : List Byte) : Prop := cstr (a.take NAME_LEN) = cstr (b.take NAME_LEN)

instance (a b : List Byte) : Decidable (sameName a b) := by
  unfold sameName; infer_instance

/-- Entry `i` is an active entry for the pair (`peerName`, `contentName`). -/
def Catalog.activeFor (c : Catalog) (peerName contentName : List Byte) (i : Nat) : Prop :=
  (c.entry i).active ≠ 0 ∧ sameName (c.entry i).peerName peerName ∧
    sameName (c.entry i).contentName contentName

instance (c : Catalog) (p n : List Byte) (i : Nat) : Decidable (c.activeFor p n i) := by
  unfold Catalog.activeFor; infer_instance

/-- Entry `i` is active and both of its names compare equal to the given ones
(the test made by `find_exact`). -/
def Catalog.matchesExact (c : Catalog) (peerName contentName : List Byte) (i : Nat) : Prop :=
  (c.entry i).active ≠ 0 ∧ strncmp (c.entry i).peerName peerName NAME_LEN = 0 ∧
    strncmp (c.entry i).contentName contentName NAME_LEN = 0

instance (c : Catalog) (p n : List Byte) (i : Nat) : Decidable (c.matchesExact p n i) := by
  unfold Catalog.matchesExact; infer_instance

/-- Entry `i` is active and its content name compares equal to the given one
(the test made by `find_least_used`). -/
def Catalog.matchesContent (c : Catalog) (content : List Byte) (i : Nat) : Prop :=
  (c.entry i).active ≠ 0 ∧ strncmp (c.entry i).contentName content NAME_LEN = 0

instance (c : Catalog) (n : List Byte) (i : Nat) : Decidable (c.matchesContent n i) := by
  unfold Catalog.matchesContent; infer_instance

/-- The number of active entries among the `entry_count` entries of the table. -/
def Catalog.activeCount (c : Catalog) : Nat :=
  ((List.range c.entry_count).filter (fun i => decide ((c.entry i).active ≠ 0))).length

/-- Loop invariant of `find_least_used` after the indices below `n` have been visited. -/
def LeastUsedInv (c : Catalog) (content : List Byte) (n : Nat) (st : Int × Int) : Prop :=
  (st = (-1, INT_MAX) ∧
    ∀ i, i < n → c.matchesContent content i → INT_MAX ≤ (c.entry i).used_count) ∨
  (∃ k : Nat, k < n ∧ st = ((k : Int), (c.entry k).used_count) ∧ c.matchesContent content k ∧
    (c.entry k).used_count < INT_MAX ∧
    (∀ i, i < n → c.matchesContent content i → (c.entry k).used_count ≤ (c.entry i).used_count) ∧
    (∀ i, i < k → c.matchesContent content i → (c.entry k).used_count < (c.entry i).used_count))

/-- A name field in the form every stored name has: a C string of at most nine characters
followed by NUL bytes up to the ten bytes of the field. -/
def NameOK (a : List Byte) : Prop :=
  strlen a < NAME_LEN ∧ a = cstr a ++ zeros (NAME_LEN - strlen a)

instance (a : List Byte) : Decidable (NameOK a) := by
  unfold NameOK; infer_instance

/-- Typing and representation condition on one table slot: both names are stored name
fields and the counter is a non-overflowed C `int`. -/
def content_entry.OK (e : content_entry) : Prop :=
  NameOK e.peerName ∧ NameOK e.contentName ∧ -2 ^ 31 ≤ e.used_count ∧ e.used_count ≤ INT_MAX

instance (e : content_entry) : Decidable e.OK := by
  unfold content_entry.OK; infer_instance

/-- Well-formed registry state: the table has its 200 slots, `entry_count` is within the
table, and every slot satisfies `content_entry.OK`. Every state the registry can reach is
well formed (`reachable_WF`). -/
def Catalog.WF (c : Catalog) : Prop :=
  c.table.length = MAX_ENTRIES ∧ c.entry_count ≤ MAX_ENTRIES ∧ ∀ e ∈ c.table, e.OK

instance (c : Catalog) : Decidable c.WF := by
  unfold Catalog.WF; infer_instance

/-- The registry states reachable from the initial one by serving received records. The
fields of a received record are arbitrary. -/
inductive Reachable : Catalog → Prop
  | init : Reachable Catalog.empty
  | step (c : Catalog) (rpdu : register_pdu) : Reachable c → Reachable (dispatch c rpdu).1

/-- Serving a sequence of received records with `dispatch`, in order. -/
def runAll (c : Catalog) (rs : List register_pdu) : Catalog :=
  rs.foldl (fun st r => (dispatch st r).1) c

/-- A Register record for `peer`/`content` whose content server listens on `port`. -/
def mkRegister (peer content : String) (port : Nat) : register_pdu :=
  { type := REGISTER, peerName := name10 peer, contentName := name10 content,
    addr := ⟨2, port, 0x7f000001⟩, padding := zeros 16 }

/-- Example state: `P1` publishes `X` and `Y`, `P2` publishes `Z`. -/
def catalogXYZ : Catalog :=
  registerAll Catalog.empty
    [mkRegister "P1" "X" 4001, mkRegister "P1" "Y" 4002, mkRegister "P2" "Z" 4003]

/-- Example state: `A`, `B`, `C` publish `song` in that order and `A` has been returned by
two searches, so the usage counters are 2, 0, 0. -/
def catalogABC : Catalog :=
  runAll Catalog.empty
    [mkRegister "A" "song" 5001, mkReq SEARCH (name10 "D") (name10 "song"),
     mkReq SEARCH (name10 "D") (name10 "song"), mkRegister "B" "song" 5002,
     mkRegister "C" "song" 5003]

/-- Entries `i` and `j` are both active and hold the same stored (peerName, contentName)
pair. -/
def Catalog.sameActivePair (c : Catalog) (i j : Nat) : Prop :=
  (c.entry i).active ≠ 0 ∧ (c.entry j).active ≠ 0 ∧
    (c.entry i).peerName = (c.entry j).peerName ∧
    (c.entry i).contentName = (c.entry j).contentName

instance (c : Catalog) (i j : Nat) : Decidable (c.sameActivePair i j) := by
  unfold Catalog.sameActivePair; infer_instance

/-- No two distinct entries below `entry_count` are both active with the same stored
(peerName, contentName) pair. -/
def Catalog.UniqueActive (c : Catalog) : Prop :=
  ∀ i, i < c.entry_count → ∀ j, j < c.entry_count → i ≠ j → ¬ c.sameActivePair i j

instance (c : Catalog) : Decidable c.UniqueActive := by
  unfold Catalog.UniqueActive; infer_instance

/-- A ten-byte wire field holding ten `A` characters and no NUL. -/
def tenA : List Byte := List.replicate NAME_LEN 65

/-- The state after `A` has registered `song`. -/
def catalogOne : Catalog := registerAll Catalog.empty [mkRegister "A" "song" 5001]

/-- The state `catalogOne` with the usage counter of its entry set to `n`. -/
def catalogUsed (n : Int) : Catalog :=
  { table := catalogOne.table.set 0 { catalogOne.entry 0 with used_count := n },
    entry_count := 1 }

/-- Serving the same Search request `n` times. -/
def searchTimes (rpdu : register_pdu) : Nat → Catalog → Catalog
  | 0, c => c
  | n + 1, c => searchTimes rpdu n (dispatch c rpdu).1

/-- The peer name of the `i`-th publisher of the full example state: two letters. -/
def fullName (i : Nat) : List Byte :=
  [Fin.ofNat (65 + i / 16), Fin.ofNat (65 + i % 16), 0, 0, 0, 0, 0, 0, 0, 0]

/-- The `i`-th Register request of the full example state. -/
def fullReq (i : Nat) : register_pdu :=
  { type := REGISTER, peerName := fullName i, contentName := name10 "X",
    addr := ⟨2, 6000 + i, 0x7f000001⟩, padding := zeros 16 }

/-- The state after the first `n` publishers of the full example state have registered. -/
def catalogUpTo (n : Nat) : Catalog :=
  registerAll Catalog.empty ((List.range n).map fullReq)

/-- Example state: 200 different publishers have registered content `X`. -/
def catalogFull : Catalog := catalogUpTo MAX_ENTRIES

/-- The listing line of one entry: `contentName (by peerName)` and a newline. -/
def entry_line (e : content_entry) : List Byte :=
  cstr e.contentName ++ lit " (by " ++ cstr e.peerName ++ lit ")\n"

/-- The concatenation, in table order, of the lines of the active entries among the first
`n` entries. -/
def listing_upto (c : Catalog) : Nat → List Byte
  | 0 => []
  | n + 1 => listing_upto c n ++ (if (c.entry n).active ≠ 0 then entry_line (c.entry n) else [])

/-- The complete listing: one line for every active entry, in table order. -/
def listing (c : Catalog) : List Byte := listing_upto c c.entry_count

/-- The text carried by a datagram: the C string in the `data` field of a `simple_pdu`. -/
def Datagram.text : Datagram → List Byte
  | .simple sp => cstr sp.data
  | .record _ => []

/-- The text carried by the Online reply. -/
def online_text (c : Catalog) : List Byte := (handle_online c).2.text

/-- Example state: five publishers with nine-character names publish five items with
nine-character names. -/
def catalogFive : Catalog :=
  registerAll Catalog.empty
    [mkRegister "publisher" "content_1" 4001, mkRegister "publisher" "content_2" 4002,
     mkRegister "publisher" "content_3" 4003, mkRegister "publisher" "content_4" 4004,
     mkRegister "publisher" "content_5" 4005]

/-! ## Content transport (peer.c)

The TCP connection is modelled from the reader's side as the list of segments that are
still to arrive; after the last one the peer has closed and `recv` returns 0. Receive
errors (`recv` returning a negative value) and write failures are not modelled. -/

/-- The reading end of a connection: the segments still to arrive, in order. -/
abbrev Sock := List (List Byte)

/-- All bytes still to arrive on the connection. -/
def Sock.bytes : Sock → List Byte
  | [] => []
  | seg :: rest => seg ++ Sock.bytes rest

/-- A connection never delivers an empty segment before it is closed. -/
def Sock.Valid (s : Sock) : Prop := ∀ seg ∈ s, seg ≠ []

instance (s : Sock) : Decidable (Sock.Valid s) := by
  unfold Sock.Valid; infer_instance

/-- `recv(sock, p, n, 0)`: the bytes received (at most `n`, from the next segment) and the
connection afterwards; no bytes once the peer has closed. -/
def recv (s : Sock) (n : Nat) : List Byte × Sock :=
  match s with
  | [] => ([], [])
  | seg :: rest => if seg.length ≤ n then (seg, rest) else (seg.take n, seg.drop n :: rest)

/-- The loop of `recv_all`: `total` bytes are in `buf` so far. `none` when the iteration
bound `fuel` is exhausted. -/
def recv_all_loop : Nat → Sock → Nat → Nat → List Byte → Option (Int × List Byte × Sock)
  | 0, _, _, _, _ => none
  | fuel + 1, s, len, total, buf =>
    if total < len then
      let r := recv s (len - total)
      if r.1.length = 0 then some (0, buf, r.2)
      else recv_all_loop fuel r.2 len (total + r.1.length) (buf ++ r.1)
    else some ((total : Int), buf, s)

/-- The function `recv_all`: return value, bytes stored in the buffer, connection afterwards.
Every iteration that does not return receives at least one byte, so `len + 1` iterations
always suffice. -/
def recv_all (s : Sock) (len : Nat) : Option (Int × List Byte × Sock) :=
  recv_all_loop (len + 1) s len 0 []

/-- `write_all(sock, buf, len)`: return value and the stream written so far. -/
def write_all (out : List Byte) (buf : List Byte) : Int × List Byte :=
  ((buf.length : Int), out ++ buf)

/-- `fread(buf, 1, n, f)` on a regular file: the bytes read and the rest of the file. -/
def fread (f : List Byte) (n : Nat) : List Byte × List Byte := (f.take n, f.drop n)

/-- The four bytes of `htonl(r)` in memory order, `r` converted to `uint32_t`. -/
def htonl (r : Nat) : List Byte :=
  [Fin.ofNat (r % 2 ^ 32 / 2 ^ 24), Fin.ofNat (r % 2 ^ 32 / 2 ^ 16 % 256),
   Fin.ofNat (r % 2 ^ 32 / 2 ^ 8 % 256), Fin.ofNat (r % 2 ^ 32 % 256)]

/-- The value `ntohl(len)` of four bytes in memory order. -/
def ntohl (b : List Byte) : Nat :=
  (b.getD 0 0).val * 2 ^ 24 + (b.getD 1 0).val * 2 ^ 16 + (b.getD 2 0).val * 2 ^ 8 +
    (b.getD 3 0).val

/-- The streaming loop of `handle_client_connection` on the rest `f` of the file, `out` being
the stream written so far; the result is the stream written when the loop ends. -/
def send_loop : Nat → List Byte → List Byte → Option (List Byte)
  | 0, _, _ => none
  | fuel + 1, f, out =>
    let rd := fread f CHUNK_SIZE
    if rd.1.length = 0 then
      some (write_all out (CONTENT :: htonl 0)).2
    else
      let w1 := write_all out (CONTENT :: htonl rd.1.length)
      if w1.1 < 0 then some w1.2
      else
        let w2 := write_all w1.2 rd.1
        if w2.1 < 0 then some w2.2
        else send_loop fuel rd.2 w2.2

/-- The local array `fname` of `handle_client_connection` after
`strncpy(fname, dp.contentName, NAME_LEN-1); fname[NAME_LEN-1] = 0`. -/
def download_fname (dp : register_pdu) : List Byte :=
  (strncpy (zeros NAME_LEN) dp.contentName (NAME_LEN - 1)).take (NAME_LEN - 1) ++ [0]

/-- The function `handle_client_connection`, given the request record `dp` that was read and
the local files (`fopen` by name): the stream written to the connection before it is closed.
Every iteration but the last reads at least one byte of the file, so `length + 1` iterations
suffice. -/
def handle_client_connection (dp : register_pdu) (fopen : List Byte → Option (List Byte)) :
    Option (List Byte) :=
  if dp.type ≠ DOWNLOAD then some []
  else
    match fopen (cstr (download_fname dp)) with
    | none => some []
    | some file => send_loop (file.length + 1) file []

/-- The inner loop of `download_from_server` (`while (remaining > 0)`): `false` when the
function returns `-1` from inside it; the local file and the connection afterwards. -/
def download_chunk_loop : Nat → Sock → Nat → List Byte → Option (Bool × List Byte × Sock)
  | 0, _, _, _ => none
  | fuel + 1, s, remaining, file =>
    if remaining > 0 then
      let toread := if remaining > CHUNK_SIZE then CHUNK_SIZE else remaining
      match recv_all s toread with
      | none => none
      | some (got, buf, s1) =>
        if got ≤ 0 then some (false, file, s1)
        else download_chunk_loop fuel s1 (remaining - got.toNat) (file ++ buf.take got.toNat)
    else some (true, file, s)

/-- The frame loop of `download_from_server` (`while (1)`): return value of the function,
local file and connection afterwards. -/
def download_loop : Nat → Sock → List Byte → Option (Int × List Byte × Sock)
  | 0, _, _ => none
  | fuel + 1, s, file =>
    match recv_all s 5 with
    | none => none
    | some (r, hdr, s1) =>
      if r ≤ 0 then some (-1, file, s1)
      else if hdr.getD 0 0 ≠ CONTENT then some (-1, file, s1)
      else
        let len := ntohl (hdr.drop 1)
        if len = 0 then some (0, file, s1)
        else
          match download_chunk_loop (len + 1) s1 len file with
          | none => none
          | some (ok, file1, s2) =>
            if ok then download_loop fuel s2 file1 else some (-1, file1, s2)

/-- The function `download_from_server` once the connection is established, the request
sent and the local file created empty: return value, local file, connection afterwards.
Every frame that does not end the loop takes at least five bytes from the connection. -/
def download_from_server (s : Sock) : Option (Int × List Byte × Sock) :=
  download_loop ((Sock.bytes s).length + 1) s []

/-- A Download request record for the content name `content`. -/
def mkDownload (content : String) : register_pdu :=
  { type := DOWNLOAD, peerName := zeros NAME_LEN,
    contentName := strncpy (zeros NAME_LEN) (lit content) (NAME_LEN - 1),
    addr := sockaddr_in.zero, padding := zeros 16 }

/-- A file system holding the single file `name` with contents `file`. -/
def oneFile (name : String) (file : List Byte) : List Byte → Option (List Byte) :=
  fun n => if n = lit name then some file else none

/-- The terminating frame: type byte and a zero length. -/
def end_frame : List Byte := CONTENT :: htonl 0

/-- `Framed F st`: the stream `st` is a sequence of data frames, each with a non-empty
payload of at most `CHUNK_SIZE` bytes, whose payloads make up `F`, followed by one
terminating frame. -/
inductive Framed : List Byte → List Byte → Prop
  | last : Framed [] end_frame
  | data (chunk rest st : List Byte) : chunk ≠ [] → chunk.length ≤ CHUNK_SIZE →
      Framed rest st → Framed (chunk ++ rest) ((CONTENT :: htonl chunk.length) ++ chunk ++ st)

/-- A wire name field that holds a NUL-terminated string: at most nine characters before the
first NUL. -/
def Terminated (a : List Byte) : Prop := strlen a < NAME_LEN

instance (a : List Byte) : Decidable (Terminated a) := by
  unfold Terminated; infer_instance

/-- The Deregister request of the first publisher of the full example state. -/
def fullDeregister : register_pdu := mkReq DEREGISTER (fullName 0) (name10 "X")

/-! ## The receive-and-dispatch loop of the registry (index.c, `main`)

The local `struct register_pdu rpdu` is modelled by its byte image: the type byte at offset
0, `peerName` at 1, `contentName` at 11, the `struct sockaddr_in` at 24 (after three bytes
of alignment) and `padding` at 40. The `struct sockaddr_in` itself is declared in the
system headers, so the reading of its sixteen bytes is a parameter. -/

/-- The value of `sizeof(struct register_pdu)`: 1 + 10 + 10 bytes, 3 bytes of alignment,
16 bytes of `struct sockaddr_in` and 16 bytes of `padding`. -/
def SIZEOF_REGISTER_PDU : Nat := 56

/-- The record held by a buffer with byte image `image`. -/
def register_pdu.ofBytes (decodeAddr : List Byte → sockaddr_in) (image : List Byte) :
    register_pdu :=
  { type := image.getD 0 0,
    peerName := (image.drop 1).take NAME_LEN,
    contentName := (image.drop (1 + NAME_LEN)).take NAME_LEN,
    addr := decodeAddr ((image.drop 24).take 16),
    padding := (image.drop 40).take 16 }

/-- `recvfrom(sock, &rpdu, len, ...)` on a buffer holding `buf`: `recvd` is the datagram that
arrives (`none` when the call fails). The return value is -1 on failure and otherwise the
number of bytes stored, at most `len`; the bytes of the buffer that the datagram does not
cover keep their previous content. -/
def recvfrom (buf : List Byte) (recvd : Option (List Byte)) (len : Nat) : Int × List Byte :=
  match recvd with
  | none => (-1, buf)
  | some d => (((d.take len).length : Int), d.take len ++ buf.drop (d.take len).length)

/-- One iteration of the `while (1)` loop of `main`: `buf` is what the local `rpdu` holds
before the call of `recvfrom` (indeterminate in C). The result is the catalog afterwards and
the response sent, if any. -/
def main_iteration (decodeAddr : List Byte → sockaddr_in) (c : Catalog) (buf : List Byte)
    (recvd : Option (List Byte)) : Catalog × Option Datagram :=
  let r := recvfrom buf recvd SIZEOF_REGISTER_PDU
  if r.1 < 1 then (c, none)
  else
    ((dispatch c (register_pdu.ofBytes decodeAddr r.2)).1,
      some (dispatch c (register_pdu.ofBytes decodeAddr r.2)).2)

/-- An example reading of the bytes of a `struct sockaddr_in`: family, port and address as
little-endian numbers. Used for concrete examples only. -/
def decodeAddrExample (b : List Byte) : sockaddr_in :=
  { sin_family := (b.getD 0 0).val + 256 * (b.getD 1 0).val,
    sin_port := (b.getD 2 0).val + 256 * (b.getD 3 0).val,
    sin_addr := (b.getD 4 0).val + 256 * (b.getD 5 0).val + 65536 * (b.getD 6 0).val +
      16777216 * (b.getD 7 0).val }

/-- A one-byte datagram holding the type byte of an Online request. -/
def datagramOnline : List Byte := [ONLINE]

/-- A 21-byte datagram: the type byte of a Register request and the two name fields, cut
before the address. -/
def datagramRegister : List Byte := REGISTER :: (name10 "P1" ++ name10 "X")

/-! ## Lemmas on the string primitives -/

theorem strncmp_self (a : List Byte) (n : Nat) : strncmp a a n = 0 := by
  induction n generalizing a with
  | zero => simp [strncmp]
  | succ n ih => simp [strncmp, ih]

theorem cstr_cons (x : Byte) (l : List Byte) :
    cstr (x :: l) = if x = 0 then [] else x :: cstr l := by
  unfold cstr
  by_cases hx : x = 0
  · simp [hx]
  · simp [List.takeWhile_cons, hx]

/-- `strncmp` over `n` bytes returns 0 exactly when the two C strings, cut to `n` bytes,
are equal. -/
theorem strncmp_eq_zero_iff (n : Nat) :
    ∀ a b : List Byte, strncmp a b n = 0 ↔ cstr (a.take n) = cstr (b.take n) := by
  induction n with
  | zero => intro a b; simp [strncmp]
  | succ n ih =>
    intro a b
    have key : ∀ (x y : Byte) (a1 b1 : List Byte),
        ((if x ≠ y then (x.val : Int) - (y.val : Int) else if x = 0 then 0
            else strncmp a1 b1 n) = 0) ↔
          ((if x = 0 then [] else x :: cstr (a1.take n)) =
            (if y = 0 then ([] : List Byte) else y :: cstr (b1.take n))) := by
      intro x y a1 b1
      by_cases hxy : x = y
      · subst hxy
        by_cases hx : x = 0
        · simp [hx]
        · simp [hx, ih a1 b1]
      · have hv : (x.val : Int) - (y.val : Int) ≠ 0 := by
          intro h
          apply hxy
          apply Fin.ext
          omega
        rw [if_pos hxy]
        by_cases hx : x = 0
        · have hy : ¬ y = 0 := fun h => hxy (hx.trans h.symm)
          simp [hx, hy, hv]
          rw [hx] at hv
          simpa using hv
        · by_cases hy : y = 0
          · simp [hx, hy, hv]
            rw [hy] at hv
            simpa using hv
          · simp [hx, hy, hv, hxy]
    cases a with
    | nil =>
      cases b with
      | nil => simp [strncmp]
      | cons y b1 =>
        have := key 0 y [] b1
        unfold strncmp
        simp only [List.headD_nil, List.headD_cons, List.tail_nil, List.tail_cons,
          List.take_nil, List.take_succ_cons, cstr_cons]
        simpa [cstr] using this
    | cons x a1 =>
      cases b with
      | nil =>
        have := key x 0 a1 []
        unfold strncmp
        simp only [List.headD_nil, List.headD_cons, List.tail_nil, List.tail_cons,
          List.take_nil, List.take_succ_cons, cstr_cons]
        simpa [cstr] using this
      | cons y b1 =>
        have := key x y a1 b1
        unfold strncmp
        simp only [List.headD_cons, List.tail_cons, List.take_succ_cons, cstr_cons]
        exact this

theorem cstr_take (l : List Byte) (n : Nat) : cstr (l.take n) = (cstr l).take n := by
  induction l generalizing n with
  | nil => simp [cstr]
  | cons x l ih =>
    cases n with
    | zero => simp [cstr]
    | succ n =>
      rw [List.take_succ_cons, cstr_cons, cstr_cons]
      by_cases hx : x = 0
      · simp [hx]
      · simp [hx, ih n]

/-- `strncmp` over the ten bytes of a name field returns 0 exactly when the two fields hold
the same name. -/
theorem strncmp_eq_zero_iff_sameName (a b : List Byte) :
    strncmp a b NAME_LEN = 0 ↔ sameName a b :=
  strncmp_eq_zero_iff NAME_LEN a b

theorem activeFor_iff (c : Catalog) (p n : List Byte) (i : Nat) :
    c.activeFor p n i ↔ c.matchesExact p n i := by
  unfold Catalog.activeFor Catalog.matchesExact
  rw [strncmp_eq_zero_iff_sameName, strncmp_eq_zero_iff_sameName]

theorem matchesContent_iff (c : Catalog) (n : List Byte) (i : Nat) :
    c.matchesContent n i ↔ ((c.entry i).active ≠ 0 ∧ sameName (c.entry i).contentName n) := by
  unfold Catalog.matchesContent
  rw [strncmp_eq_zero_iff_sameName]

/-! ## Lemmas on `find_exact` -/

theorem find_exact_loop_eq_neg_one (c : Catalog) (p n : List Byte) (l : List Nat) :
    find_exact_loop c p n l = -1 ↔ ∀ i ∈ l, ¬ c.matchesExact p n i := by
  induction l with
  | nil => simp [find_exact_loop]
  | cons i rest ih =>
    simp only [find_exact_loop, List.mem_cons, forall_eq_or_imp]
    by_cases ha : (c.entry i).active = 0
    · simp [ha, ih, Catalog.matchesExact]
    · by_cases hm : strncmp (c.entry i).peerName p NAME_LEN = 0 ∧
          strncmp (c.entry i).contentName n NAME_LEN = 0
      · simp only [ha, hm, if_false, and_self, if_true]
        constructor
        · intro h; omega
        · intro h; exact absurd ⟨ha, hm⟩ h.1
      · simp only [ha, hm, if_false, ih]
        constructor
        · intro h; exact ⟨fun hx => hm hx.2, h⟩
        · intro h; exact h.2

theorem find_exact_loop_range (c : Catalog) (p n : List Byte) (len s k : Nat) :
    find_exact_loop c p n (List.range' s len) = (k : Int) ↔
      (s ≤ k ∧ k < s + len ∧ c.matchesExact p n k ∧ ∀ j, s ≤ j → j < k → ¬ c.matchesExact p n j) := by
  induction len generalizing s with
  | zero =>
    simp only [List.range'_zero, find_exact_loop]
    constructor
    · intro h; omega
    · intro h; omega
  | succ len ih =>
    simp only [List.range'_succ, find_exact_loop]
    by_cases hm : c.matchesExact p n s
    · have ha : ¬ (c.entry s).active = 0 := hm.1
      simp only [ha, if_false, hm.2, and_self, if_true]
      constructor
      · intro h
        have : s = k := by exact_mod_cast h
        subst this
        exact ⟨le_refl _, by omega, hm, fun j h1 h2 => by omega⟩
      · rintro ⟨h1, _, _, h4⟩
        rcases Nat.eq_or_lt_of_le h1 with h | h
        · rw [h]
        · exact absurd hm (h4 s (le_refl _) h)
    · have hstep : (if (c.entry s).active = 0 then find_exact_loop c p n (List.range' (s + 1) len)
          else if strncmp (c.entry s).peerName p NAME_LEN = 0 ∧
            strncmp (c.entry s).contentName n NAME_LEN = 0 then (s : Int)
          else find_exact_loop c p n (List.range' (s + 1) len)) =
          find_exact_loop c p n (List.range' (s + 1) len) := by
        by_cases ha : (c.entry s).active = 0
        · simp [ha]
        · have : ¬ (strncmp (c.entry s).peerName p NAME_LEN = 0 ∧
            strncmp (c.entry s).contentName n NAME_LEN = 0) := fun h => hm ⟨ha, h⟩
          simp [ha, this]
      rw [hstep, ih]
      constructor
      · rintro ⟨h1, h2, h3, h4⟩
        refine ⟨by omega, by omega, h3, fun j hj1 hj2 => ?_⟩
        rcases Nat.eq_or_lt_of_le hj1 with h | h
        · rw [← h]; exact hm
        · exact h4 j h hj2
      · rintro ⟨h1, h2, h3, h4⟩
        have hne : s ≠ k := fun h => hm (h ▸ h3)
        exact ⟨by omega, by omega, h3, fun j hj1 hj2 => h4 j (by omega) hj2⟩

theorem find_exact_eq_neg_one (c : Catalog) (p n : List Byte) :
    find_exact c p n = -1 ↔ ∀ i, i < c.entry_count → ¬ c.matchesExact p n i := by
  simp [find_exact, find_exact_loop_eq_neg_one]

theorem find_exact_eq_index (c : Catalog) (p n : List Byte) (k : Nat) :
    find_exact c p n = (k : Int) ↔
      (k < c.entry_count ∧ c.matchesExact p n k ∧ ∀ j, j < k → ¬ c.matchesExact p n j) := by
  rw [find_exact, List.range_eq_range', find_exact_loop_range]
  constructor
  · rintro ⟨_, h2, h3, h4⟩
    exact ⟨by omega, h3, fun j hj => h4 j (Nat.zero_le _) hj⟩
  · rintro ⟨h2, h3, h4⟩
    exact ⟨Nat.zero_le _, by omega, h3, fun j _ hj => h4 j hj⟩

/-- The result of `find_exact` is `-1` or an index below `entry_count`. -/
theorem find_exact_cases (c : Catalog) (p n : List Byte) :
    find_exact c p n = -1 ∨ ∃ k : Nat, find_exact c p n = (k : Int) := by
  by_cases h : ∃ i, i < c.entry_count ∧ c.matchesExact p n i
  · right
    classical
    refine ⟨Nat.find h, ?_⟩
    rw [find_exact_eq_index]
    refine ⟨(Nat.find_spec h).1, (Nat.find_spec h).2, fun j hj hm => ?_⟩
    exact Nat.find_min h hj ⟨lt_trans hj (Nat.find_spec h).1, hm⟩
  · left
    rw [find_exact_eq_neg_one]
    intro i hi hm
    exact h ⟨i, hi, hm⟩

/-! ## Lemmas on `find_least_used` -/

theorem find_least_used_step_inv (c : Catalog) (content : List Byte) (n : Nat) (st : Int × Int)
    (h : LeastUsedInv c content n st) :
    LeastUsedInv c content (n + 1) (find_least_used_step c content st n) := by
  unfold find_least_used_step
  by_cases hm : c.matchesContent content n
  · have ha : ¬ (c.entry n).active = 0 := hm.1
    simp only [ha, if_false, hm.2, if_true]
    rcases h with ⟨hst, hall⟩ | ⟨k, hk, hst, hmk, hlt, hmin, hlow⟩
    · subst hst
      by_cases hu : (c.entry n).used_count < INT_MAX
      · simp only [hu, if_true]
        right
        refine ⟨n, Nat.lt_succ_self n, rfl, hm, hu, fun i hi hmi => ?_, fun i hi hmi => ?_⟩
        · rcases Nat.lt_succ_iff_lt_or_eq.mp hi with h1 | h1
          · have := hall i h1 hmi; omega
          · subst h1; exact le_refl _
        · have := hall i hi hmi; omega
      · simp only [hu, if_false]
        left
        refine ⟨rfl, fun i hi hmi => ?_⟩
        rcases Nat.lt_succ_iff_lt_or_eq.mp hi with h1 | h1
        · exact hall i h1 hmi
        · subst h1; omega
    · subst hst
      by_cases hu : (c.entry n).used_count < (c.entry k).used_count
      · simp only [hu, if_true]
        right
        refine ⟨n, Nat.lt_succ_self n, rfl, hm, by omega, fun i hi hmi => ?_, fun i hi hmi => ?_⟩
        · rcases Nat.lt_succ_iff_lt_or_eq.mp hi with h1 | h1
          · have := hmin i h1 hmi; omega
          · subst h1; exact le_refl _
        · have := hmin i hi hmi; omega
      · simp only [hu, if_false]
        right
        refine ⟨k, by omega, rfl, hmk, hlt, fun i hi hmi => ?_, hlow⟩
        rcases Nat.lt_succ_iff_lt_or_eq.mp hi with h1 | h1
        · exact hmin i h1 hmi
        · subst h1; omega
  · have hstep : (if (c.entry n).active = 0 then st
        else if strncmp (c.entry n).contentName content NAME_LEN = 0 then
          if (c.entry n).used_count < st.2 then ((n : Int), (c.entry n).used_count) else st
        else st) = st := by
      by_cases ha : (c.entry n).active = 0
      · simp [ha]
      · have : ¬ strncmp (c.entry n).contentName content NAME_LEN = 0 := fun h => hm ⟨ha, h⟩
        simp [ha, this]
    rw [hstep]
    rcases h with ⟨hst, hall⟩ | ⟨k, hk, hst, hmk, hlt, hmin, hlow⟩
    · left
      refine ⟨hst, fun i hi hmi => ?_⟩
      rcases Nat.lt_succ_iff_lt_or_eq.mp hi with h1 | h1
      · exact hall i h1 hmi
      · subst h1; exact absurd hmi hm
    · right
      refine ⟨k, by omega, hst, hmk, hlt, fun i hi hmi => ?_, hlow⟩
      rcases Nat.lt_succ_iff_lt_or_eq.mp hi with h1 | h1
      · exact hmin i h1 hmi
      · subst h1; exact absurd hmi hm

theorem find_least_used_fold_inv (c : Catalog) (content : List Byte) (n : Nat) :
    LeastUsedInv c content n
      ((List.range n).foldl (find_least_used_step c content) (-1, INT_MAX)) := by
  induction n with
  | zero =>
    left
    exact ⟨rfl, fun i hi => absurd hi (Nat.not_lt_zero i)⟩
  | succ n ih =>
    rw [List.range_succ, List.foldl_append]
    exact find_least_used_step_inv c content n _ ih

/-- When `find_least_used` returns `-1`, every active matching entry has a saturated counter. -/
theorem find_least_used_eq_neg_one (c : Catalog) (content : List Byte) :
    find_least_used c content = -1 ↔
      ∀ i, i < c.entry_count → c.matchesContent content i → INT_MAX ≤ (c.entry i).used_count := by
  unfold find_least_used
  rcases find_least_used_fold_inv c content c.entry_count with ⟨hst, hall⟩ | ⟨k, hk, hst, hmk, hlt, _, _⟩
  · rw [hst]; simp only [true_iff]; exact hall
  · rw [hst]
    constructor
    · intro h; simp only at h; omega
    · intro h; have := h k hk hmk; omega

/-- Characterisation of the index returned by `find_least_used`. -/
theorem find_least_used_eq_index (c : Catalog) (content : List Byte) (k : Nat) :
    find_least_used c content = (k : Int) ↔
      (k < c.entry_count ∧ c.matchesContent content k ∧ (c.entry k).used_count < INT_MAX ∧
        (∀ i, i < c.entry_count → c.matchesContent content i →
          (c.entry k).used_count ≤ (c.entry i).used_count) ∧
        (∀ i, i < k → c.matchesContent content i →
          (c.entry k).used_count < (c.entry i).used_count)) := by
  unfold find_least_used
  rcases find_least_used_fold_inv c content c.entry_count with ⟨hst, hall⟩ | ⟨j, hj, hst, hmj, hlt, hmin, hlow⟩
  · rw [hst]
    constructor
    · intro h; simp only at h; omega
    · rintro ⟨h1, h2, h3, _, _⟩
      have := hall k h1 h2; omega
  · rw [hst]
    constructor
    · intro h
      have hjk : j = k := by simp only at h; exact_mod_cast h
      subst hjk
      exact ⟨hj, hmj, hlt, hmin, hlow⟩
    · rintro ⟨h1, h2, h3, h4, h5⟩
      have e1 := hmin k h1 h2
      have e2 := h4 j hj hmj
      have hjk : j = k := by
        rcases Nat.lt_trichotomy j k with h | h | h
        · have := h5 j h hmj; omega
        · exact h
        · have := hlow k h h2; omega
      subst hjk; rfl

theorem find_least_used_cases (c : Catalog) (content : List Byte) :
    find_least_used c content = -1 ∨ ∃ k : Nat, find_least_used c content = (k : Int) := by
  unfold find_least_used
  rcases find_least_used_fold_inv c content c.entry_count with ⟨hst, _⟩ | ⟨j, _, hst, _⟩
  · left; rw [hst]
  · right; exact ⟨j, by rw [hst]⟩

/-! ## Lemmas on name fields -/

theorem cstr_ne_zero (a : List Byte) : ∀ b ∈ cstr a, b ≠ 0 := by
  intro b hb
  have := List.mem_takeWhile_imp hb
  simpa using this

theorem cstr_append (s t : List Byte) (hs : ∀ b ∈ s, b ≠ 0) : cstr (s ++ t) = s ++ cstr t := by
  unfold cstr
  apply List.takeWhile_append_of_pos
  intro b hb
  simpa using hs b hb

theorem cstr_zeros (k : Nat) (t : List Byte) (hk : 0 < k) : cstr (zeros k ++ t) = [] := by
  obtain ⟨m, rfl⟩ : ∃ m, k = m + 1 := ⟨k - 1, by omega⟩
  show List.takeWhile _ (List.replicate (m + 1) 0 ++ t) = []
  rw [List.replicate_succ]
  rfl

theorem cstr_zeros_only (k : Nat) : cstr (zeros k) = [] := by
  cases k with
  | zero => rfl
  | succ m =>
    show List.takeWhile _ (List.replicate (m + 1) 0) = []
    rw [List.replicate_succ]
    rfl

theorem cstr_length_le (a : List Byte) : (cstr a).length ≤ a.length := by
  unfold cstr
  exact (List.takeWhile_sublist _).length_le

theorem zeros_length (k : Nat) : (zeros k).length = k := by simp [zeros]

theorem zeros_add (a b : Nat) : zeros (a + b) = zeros a ++ zeros b := by
  unfold zeros
  rw [List.replicate_add]

/-- A string without NUL followed by at least one NUL: its C string is the string. -/
theorem cstr_pad (s : List Byte) (k : Nat) (hs : ∀ b ∈ s, b ≠ 0) : cstr (s ++ zeros k) = s := by
  rw [cstr_append s _ hs, cstr_zeros_only, List.append_nil]

theorem NameOK.length_eq {a : List Byte} (h : NameOK a) : a.length = NAME_LEN := by
  have h2 := congrArg List.length h.2
  have h1 := h.1
  simp only [List.length_append, zeros_length] at h2
  unfold strlen at h1 h2
  omega

theorem NameOK.drop_nine {a : List Byte} (h : NameOK a) : a.drop (NAME_LEN - 1) = [0] := by
  have h1 := h.1
  rw [h.2]
  unfold strlen at h1 ⊢
  have hsplit : NAME_LEN - (cstr a).length = (NAME_LEN - 1 - (cstr a).length) + 1 := by
    unfold NAME_LEN at h1 ⊢; omega
  rw [hsplit, zeros_add, ← List.append_assoc]
  rw [List.drop_left']
  · rfl
  · simp only [List.length_append, zeros_length]
    unfold NAME_LEN at h1 ⊢; omega

/-- The string copied by `strncpy(_, src, n)` is no longer than `n`. -/
theorem cstr_take_length_le (src : List Byte) (n : Nat) : (cstr (src.take n)).length ≤ n := by
  have := cstr_length_le (src.take n)
  have h2 : (src.take n).length ≤ n := by simp
  omega

/-- Copying nine characters into a stored name field yields a stored name field again. -/
theorem strncpy_nameOK (dst src : List Byte) (h : NameOK dst) :
    NameOK (strncpy dst src (NAME_LEN - 1)) := by
  have hlen := cstr_take_length_le src (NAME_LEN - 1)
  have hform : strncpy dst src (NAME_LEN - 1) =
      cstr (src.take (NAME_LEN - 1)) ++ zeros (NAME_LEN - (cstr (src.take (NAME_LEN - 1))).length) := by
    unfold strncpy
    simp only []
    rw [h.drop_nine]
    have : NAME_LEN - (cstr (src.take (NAME_LEN - 1))).length =
        (NAME_LEN - 1 - (cstr (src.take (NAME_LEN - 1))).length) + 1 := by
      unfold NAME_LEN at hlen ⊢; omega
    rw [this, zeros_add, List.append_assoc]
    rfl
  have hc : cstr (strncpy dst src (NAME_LEN - 1)) = cstr (src.take (NAME_LEN - 1)) := by
    rw [hform]; exact cstr_pad _ _ (cstr_ne_zero _)
  refine ⟨?_, ?_⟩
  · unfold strlen; rw [hc]; unfold NAME_LEN at hlen ⊢; omega
  · unfold strlen; rw [hc]; exact hform

/-- Copying a stored name into a zeroed field reproduces it byte for byte. -/
theorem strncpy_zeros_of_nameOK (a : List Byte) (h : NameOK a) :
    strncpy (zeros NAME_LEN) a (NAME_LEN - 1) = a := by
  have h1 := h.1
  unfold strlen at h1
  have htake : a.take (NAME_LEN - 1) = cstr a ++ zeros (NAME_LEN - 1 - (cstr a).length) := by
    conv_lhs => rw [h.2]
    unfold strlen
    rw [List.take_append_eq_append_take]
    have : (cstr a).take (NAME_LEN - 1) = cstr a := by
      apply List.take_of_length_le; unfold NAME_LEN at h1 ⊢; omega
    rw [this]
    congr 1
    simp [zeros, List.take_replicate]
    unfold NAME_LEN at h1 ⊢; omega
  have hc2 : cstr (a.take (NAME_LEN - 1)) = cstr a := by
    rw [htake]; exact cstr_pad _ _ (cstr_ne_zero a)
  unfold strncpy
  simp only []
  rw [hc2]
  conv_rhs => rw [h.2]
  unfold strlen
  have hsplit : NAME_LEN - (cstr a).length = (NAME_LEN - 1 - (cstr a).length) + 1 := by
    unfold NAME_LEN at h1 ⊢; omega
  rw [hsplit, zeros_add, List.append_assoc]
  rfl

theorem nameOK_zeros : NameOK (zeros NAME_LEN) := by decide

/-! ## Lemmas on table slots -/

theorem getD_set_eq {α : Type} (t : List α) (i j : Nat) (e d : α) :
    (t.set i e).getD j d = if i = j ∧ i < t.length then e else t.getD j d := by
  simp only [List.getD_eq_getElem?_getD, List.getElem?_set]
  by_cases hij : i = j
  · subst hij
    by_cases hl : i < t.length
    · simp [hl]
    · simp [hl, List.getElem?_eq_none (Nat.le_of_not_lt hl)]
  · simp [hij]

theorem entry_zero_of_length_le (c : Catalog) (i : Nat) (h : c.table.length ≤ i) :
    c.entry i = content_entry.zero := by
  unfold Catalog.entry
  simp [List.getD_eq_getElem?_getD, List.getElem?_eq_none h]

/-- An active slot lies inside the table. -/
theorem lt_length_of_active (c : Catalog) (i : Nat) (h : (c.entry i).active ≠ 0) :
    i < c.table.length := by
  by_contra hl
  rw [entry_zero_of_length_le c i (Nat.le_of_not_lt hl)] at h
  exact h rfl

theorem entry_mem (c : Catalog) (i : Nat) (h : i < c.table.length) : c.entry i ∈ c.table := by
  unfold Catalog.entry
  rw [List.getD_eq_getElem?_getD, List.getElem?_eq_getElem h]
  exact List.getElem_mem h

theorem entry_OK (c : Catalog) (hwf : c.WF) (i : Nat) : (c.entry i).OK := by
  by_cases h : i < c.table.length
  · exact hwf.2.2 _ (entry_mem c i h)
  · rw [entry_zero_of_length_le c i (Nat.le_of_not_lt h)]
    decide

/-! ## The loop of `handle_quit` -/

theorem handle_quit_fold (p : List Byte) (t : List content_entry) (n : Nat) :
    ((List.range n).foldl (handle_quit_step p) t).length = t.length ∧
    ∀ i, ((List.range n).foldl (handle_quit_step p) t).getD i content_entry.zero =
      if i < n ∧ (t.getD i content_entry.zero).active ≠ 0 ∧
          strncmp (t.getD i content_entry.zero).peerName p NAME_LEN = 0
      then { t.getD i content_entry.zero with active := 0 } else t.getD i content_entry.zero := by
  induction n with
  | zero => simp
  | succ n ih =>
    obtain ⟨ihl, ihe⟩ := ih
    rw [List.range_succ, List.foldl_append]
    simp only [List.foldl_cons, List.foldl_nil]
    generalize hT : (List.range n).foldl (handle_quit_step p) t = T at ihl ihe
    have hTn : T.getD n content_entry.zero = t.getD n content_entry.zero := by
      rw [ihe n]; simp
    unfold handle_quit_step
    simp only [hTn]
    by_cases hc : (t.getD n content_entry.zero).active ≠ 0 ∧
        strncmp (t.getD n content_entry.zero).peerName p NAME_LEN = 0
    · rw [if_pos hc]
      refine ⟨by simp [ihl], fun i => ?_⟩
      rw [getD_set_eq]
      have hnl : n < T.length := by
        rw [ihl]
        by_contra hl
        have : t.getD n content_entry.zero = content_entry.zero := by
          simp [List.getD_eq_getElem?_getD, List.getElem?_eq_none (Nat.le_of_not_lt hl)]
        rw [this] at hc
        exact hc.1 rfl
      by_cases hin : n = i
      · subst hin
        have h1 : n = n ∧ n < T.length := ⟨rfl, hnl⟩
        have h2 : n < n + 1 ∧ (t.getD n content_entry.zero).active ≠ 0 ∧
            strncmp (t.getD n content_entry.zero).peerName p NAME_LEN = 0 :=
          ⟨Nat.lt_succ_self n, hc⟩
        rw [if_pos h1, if_pos h2]
      · have h1 : ¬ (n = i ∧ n < T.length) := fun h => hin h.1
        rw [if_neg h1, ihe i]
        have h2 : i < n + 1 ↔ i < n := by omega
        simp only [h2]
    · rw [if_neg hc]
      refine ⟨ihl, fun i => ?_⟩
      rw [ihe i]
      by_cases hin : i = n
      · subst hin
        have h1 : ¬ (i < i ∧ (t.getD i content_entry.zero).active ≠ 0 ∧
            strncmp (t.getD i content_entry.zero).peerName p NAME_LEN = 0) := fun h => by omega
        have h2 : ¬ (i < i + 1 ∧ (t.getD i content_entry.zero).active ≠ 0 ∧
            strncmp (t.getD i content_entry.zero).peerName p NAME_LEN = 0) := fun h => hc h.2
        rw [if_neg h1, if_neg h2]
      · have h2 : i < n + 1 ↔ i < n := by omega
        simp only [h2]

/-- The entries of the table after `handle_quit`. -/
theorem handle_quit_entry (c : Catalog) (rpdu : register_pdu) (i : Nat) :
    (handle_quit c rpdu).1.entry i =
      if i < c.entry_count ∧ (c.entry i).active ≠ 0 ∧
          strncmp (c.entry i).peerName rpdu.peerName NAME_LEN = 0
      then { c.entry i with active := 0 } else c.entry i :=
  (handle_quit_fold rpdu.peerName c.table c.entry_count).2 i

/-! ## Replies and effects of the handlers -/

/-- A Register request matching an active entry is refused and changes nothing. -/
theorem handle_register_of_match (c : Catalog) (rpdu : register_pdu)
    (h : ∃ i, i < c.entry_count ∧ c.matchesExact rpdu.peerName rpdu.contentName i) :
    handle_register c rpdu = (c, .simple (send_simple ERROR (lit "Duplicate registration"))) := by
  have hne : find_exact c rpdu.peerName rpdu.contentName ≠ -1 := by
    rw [Ne, find_exact_eq_neg_one]
    obtain ⟨i, hi, hm⟩ := h
    exact fun hall => hall i hi hm
  unfold handle_register
  rw [if_pos hne]

/-- A Register request matching no active entry while `entry_count` is at the maximum
is refused and changes nothing. -/
theorem handle_register_of_full (c : Catalog) (rpdu : register_pdu)
    (hno : ∀ i, i < c.entry_count → ¬ c.matchesExact rpdu.peerName rpdu.contentName i)
    (hfull : MAX_ENTRIES ≤ c.entry_count) :
    handle_register c rpdu = (c, .simple (send_simple ERROR (lit "Server storage full"))) := by
  have he : find_exact c rpdu.peerName rpdu.contentName = -1 :=
    (find_exact_eq_neg_one _ _ _).2 hno
  unfold handle_register
  simp [he, hfull]

/-- A Register request matching no active entry while there is room is stored in slot
`entry_count`. -/
theorem handle_register_of_room (c : Catalog) (rpdu : register_pdu)
    (hno : ∀ i, i < c.entry_count → ¬ c.matchesExact rpdu.peerName rpdu.contentName i)
    (hroom : c.entry_count < MAX_ENTRIES) :
    handle_register c rpdu =
      ({ table := c.table.set c.entry_count
            { peerName := strncpy (c.entry c.entry_count).peerName rpdu.peerName (NAME_LEN - 1),
              contentName :=
                strncpy (c.entry c.entry_count).contentName rpdu.contentName (NAME_LEN - 1),
              addr := rpdu.addr, used_count := 0, active := 1 },
         entry_count := c.entry_count + 1 },
        .simple (send_simple ACKNOWLEDGEMENT (lit "Registered"))) := by
  have he : find_exact c rpdu.peerName rpdu.contentName = -1 :=
    (find_exact_eq_neg_one _ _ _).2 hno
  unfold handle_register
  simp [he, Nat.not_le.2 hroom]

theorem activeCount_le (c : Catalog) : c.activeCount ≤ c.entry_count := by
  unfold Catalog.activeCount
  calc ((List.range c.entry_count).filter _).length
      ≤ (List.range c.entry_count).length := List.length_filter_le _ _
    _ = c.entry_count := List.length_range _

theorem wrap32_of_range (x : Int) (h1 : -2 ^ 31 ≤ x) (h2 : x < 2 ^ 31) : wrap32 x = x := by
  unfold wrap32
  omega

/-- Byte-identical name fields are a special case of a match. -/
theorem handle_register_of_identical (c : Catalog) (rpdu : register_pdu) (i : Nat)
    (hi : i < c.entry_count) (hact : (c.entry i).active ≠ 0)
    (hp : (c.entry i).peerName = rpdu.peerName)
    (hn : (c.entry i).contentName = rpdu.contentName) :
    handle_register c rpdu = (c, .simple (send_simple ERROR (lit "Duplicate registration"))) :=
  handle_register_of_match c rpdu
    ⟨i, hi, hact, by rw [hp]; exact strncmp_self _ _, by rw [hn]; exact strncmp_self _ _⟩

/-- C7. Duplicate registration is rejected atomically: for every catalog state and every
Register request whose peer name and content name equal those of some active entry (the
name fields hold the same strings; byte-identical fields are a special case),
`handle_register` replies Error "Duplicate registration" and returns the state unchanged
(same table, same `entry_count`). -/
theorem handle_register_duplicate (c : Catalog) (rpdu : register_pdu)
    (h : ∃ i, i < c.entry_count ∧ c.activeFor rpdu.peerName rpdu.contentName i) :
    handle_register c rpdu = (c, .simple (send_simple ERROR (lit "Duplicate registration"))) ∧
    (handle_register c rpdu).1.table = c.table ∧
    (handle_register c rpdu).1.entry_count = c.entry_count := by
  obtain ⟨i, hi, hm⟩ := h
  rw [handle_register_of_match c rpdu ⟨i, hi, (activeFor_iff c _ _ i).1 hm⟩]
  exact ⟨rfl, rfl, rfl⟩

/-- Registering `P1`/`X` a second time in the example state is refused. -/
theorem handle_register_duplicate_witness :
    (∃ i, i < catalogXYZ.entry_count ∧
      catalogXYZ.activeFor (name10 "P1") (name10 "X") i) ∧
    handle_register catalogXYZ (mkRegister "P1" "X" 4009) =
      (catalogXYZ, .simple (send_simple ERROR (lit "Duplicate registration"))) :=
  ⟨⟨0, by decide, by decide⟩,
   (handle_register_duplicate catalogXYZ (mkRegister "P1" "X" 4009)
      ⟨0, by decide, by decide⟩).1⟩

/-- C8. Effect of Deregister: if some active entry holds the request's peer and content
names, then `handle_deregister` replies Acknowledge ("Deregistered") and the new state is
the old one with the `active` flag of the lowest-indexed such entry cleared (slot, names,
address and usage counter kept, `entry_count` kept); otherwise it replies
Error "No such registration" and the state is unchanged. -/
theorem handle_deregister_effect (c : Catalog) (rpdu : register_pdu) :
    ((∃ i, i < c.entry_count ∧ c.activeFor rpdu.peerName rpdu.contentName i) →
      ∃ k, k < c.entry_count ∧ k < c.table.length ∧
        c.activeFor rpdu.peerName rpdu.contentName k ∧
        (∀ j, j < k → ¬ c.activeFor rpdu.peerName rpdu.contentName j) ∧
        handle_deregister c rpdu =
          ({ table := c.table.set k { c.entry k with active := 0 },
             entry_count := c.entry_count },
           .simple (send_simple ACKNOWLEDGEMENT (lit "Deregistered")))) ∧
    ((¬ ∃ i, i < c.entry_count ∧ c.activeFor rpdu.peerName rpdu.contentName i) →
      handle_deregister c rpdu =
        (c, .simple (send_simple ERROR (lit "No such registration")))) := by
  constructor
  · intro h
    rcases find_exact_cases c rpdu.peerName rpdu.contentName with he | ⟨k, hk⟩
    · obtain ⟨i, hi, hm⟩ := h
      exact absurd ((activeFor_iff c _ _ i).1 hm) ((find_exact_eq_neg_one _ _ _).1 he i hi)
    · obtain ⟨h1, h2, h3⟩ := (find_exact_eq_index _ _ _ _).1 hk
      refine ⟨k, h1, lt_length_of_active c k h2.1, (activeFor_iff c _ _ k).2 h2,
        fun j hj hm => h3 j hj ((activeFor_iff c _ _ j).1 hm), ?_⟩
      unfold handle_deregister
      simp only [hk]
      have hne : ¬ ((k : Int) = -1) := by omega
      rw [if_neg hne]
      simp
  · intro h
    have he : find_exact c rpdu.peerName rpdu.contentName = -1 := by
      rw [find_exact_eq_neg_one]
      exact fun i hi hm => h ⟨i, hi, (activeFor_iff c _ _ i).2 hm⟩
    unfold handle_deregister
    simp [he]

/-- Deregistering `P1`/`Y` in the example state clears the flag of slot 1 only. -/
theorem handle_deregister_effect_witness :
    handle_deregister catalogXYZ (mkReq DEREGISTER (name10 "P1") (name10 "Y")) =
      ({ table := catalogXYZ.table.set 1 { catalogXYZ.entry 1 with active := 0 },
         entry_count := catalogXYZ.entry_count },
       .simple (send_simple ACKNOWLEDGEMENT (lit "Deregistered"))) ∧
    handle_deregister catalogXYZ (mkReq DEREGISTER (name10 "P2") (name10 "Y")) =
      (catalogXYZ, .simple (send_simple ERROR (lit "No such registration"))) := by
  constructor
  · obtain ⟨k, _, _, hm, hlow, heq⟩ :=
      (handle_deregister_effect catalogXYZ (mkReq DEREGISTER (name10 "P1") (name10 "Y"))).1
        ⟨1, by decide, by decide⟩
    have hk : k = 1 := by
      rcases Nat.lt_trichotomy k 1 with h | h | h
      · have : k = 0 := by omega
        subst this
        exact absurd hm (by decide)
      · exact h
      · exact absurd (show catalogXYZ.activeFor (name10 "P1") (name10 "Y") 1 by decide)
          (hlow 1 h)
    subst hk
    exact heq
  · exact (handle_deregister_effect catalogXYZ (mkReq DEREGISTER (name10 "P2") (name10 "Y"))).2
      (by decide)

/-- C6. Quit deactivates exactly the issuer's entries: for every catalog state and every Quit
request, `handle_quit` replies Acknowledge ("Quit"); `entry_count` and the number of slots
are unchanged; every slot keeps its publisher name, content name, address and usage counter;
an entry (index below `entry_count`) is active afterwards exactly when it was active before
and its publisher name is not the request's; slots at or above `entry_count` are
untouched. Example: after registering P1-X, P1-Y, P2-Z, Quit for P1 leaves
Z active and X, Y inactive. -/
theorem handle_quit_effect :
    (∀ (c : Catalog) (rpdu : register_pdu),
      (handle_quit c rpdu).2 = .simple (send_simple ACKNOWLEDGEMENT (lit "Quit")) ∧
      (handle_quit c rpdu).1.entry_count = c.entry_count ∧
      (handle_quit c rpdu).1.table.length = c.table.length ∧
      ∀ i,
        ((handle_quit c rpdu).1.entry i).peerName = (c.entry i).peerName ∧
        ((handle_quit c rpdu).1.entry i).contentName = (c.entry i).contentName ∧
        ((handle_quit c rpdu).1.entry i).addr = (c.entry i).addr ∧
        ((handle_quit c rpdu).1.entry i).used_count = (c.entry i).used_count ∧
        (i < c.entry_count →
          (((handle_quit c rpdu).1.entry i).active ≠ 0 ↔
            ((c.entry i).active ≠ 0 ∧ ¬ sameName (c.entry i).peerName rpdu.peerName))) ∧
        (c.entry_count ≤ i → (handle_quit c rpdu).1.entry i = c.entry i)) ∧
    (((handle_quit catalogXYZ (mkReq QUIT (name10 "P1") (zeros NAME_LEN))).1.entry 0).active = 0 ∧
     ((handle_quit catalogXYZ (mkReq QUIT (name10 "P1") (zeros NAME_LEN))).1.entry 1).active = 0 ∧
     ((handle_quit catalogXYZ (mkReq QUIT (name10 "P1") (zeros NAME_LEN))).1.entry 2).active ≠ 0 ∧
     cstr ((handle_quit catalogXYZ (mkReq QUIT (name10 "P1") (zeros NAME_LEN))).1.entry 2).contentName
       = lit "Z") := by
  refine ⟨fun c rpdu => ⟨rfl, rfl, (handle_quit_fold rpdu.peerName c.table c.entry_count).1,
    fun i => ?_⟩, by decide⟩
  rw [handle_quit_entry, ← strncmp_eq_zero_iff_sameName]
  by_cases hc : i < c.entry_count ∧ (c.entry i).active ≠ 0 ∧
      strncmp (c.entry i).peerName rpdu.peerName NAME_LEN = 0
  · rw [if_pos hc]
    refine ⟨rfl, rfl, rfl, rfl, fun _ => ?_, fun h => absurd hc.1 (Nat.not_lt.2 h)⟩
    constructor
    · intro h; exact absurd rfl h
    · intro h; exact absurd hc.2.2 h.2
  · rw [if_neg hc]
    refine ⟨rfl, rfl, rfl, rfl, fun hi => ?_, fun _ => rfl⟩
    constructor
    · intro h; exact ⟨h, fun hs => hc ⟨hi, h, hs⟩⟩
    · intro h; exact h.1

/-- The general statement of C6 applied to the example state: slot 2 (P2-Z) stays active and
slot 0 (P1-X) does not. -/
theorem handle_quit_effect_witness :
    ((handle_quit catalogXYZ (mkReq QUIT (name10 "P1") (zeros NAME_LEN))).1.entry 2).active ≠ 0 ∧
    ¬ ((handle_quit catalogXYZ (mkReq QUIT (name10 "P1") (zeros NAME_LEN))).1.entry 0).active ≠ 0 :=
  ⟨((handle_quit_effect.1 catalogXYZ (mkReq QUIT (name10 "P1") (zeros NAME_LEN))).2.2.2 2).2.2.2.2.1
      (by decide) |>.2 (by decide),
   fun h => (((handle_quit_effect.1 catalogXYZ
      (mkReq QUIT (name10 "P1") (zeros NAME_LEN))).2.2.2 0).2.2.2.2.1 (by decide) |>.1 h).2
      (by decide)⟩

/-- The entry selected by `find_least_used` is active, inside the table, and its counter is
below `INT_MAX`. -/
theorem find_least_used_selected (c : Catalog) (content : List Byte) (i : Nat)
    (h : find_least_used c content = (i : Int)) :
    i < c.entry_count ∧ i < c.table.length ∧ c.matchesContent content i ∧
      (c.entry i).used_count < INT_MAX := by
  obtain ⟨h1, h2, h3, _, _⟩ := (find_least_used_eq_index c content i).1 h
  exact ⟨h1, lt_length_of_active c i h2.1, h2, h3⟩

/-- C3. Effect of Search: for every (well-formed) catalog state and every Search request, if
`find_least_used` selects entry `i` then `handle_search` replies with a record of kind Search
carrying entry `i`'s publisher name, content name and address, and the new state is the old
one with entry `i`'s usage counter larger by exactly one; if it selects no entry the reply is
Error "Content not found" and the state is unchanged. Consequently, with entries A (usage 2),
B (usage 0), C (usage 0) for one content inserted in that order, the first Search returns B
and leaves B at usage 1, and the second Search returns C. -/
theorem handle_search_effect :
    (∀ (c : Catalog) (rpdu : register_pdu), c.WF →
      (∀ i : Nat, find_least_used c rpdu.contentName = (i : Int) →
        i < c.entry_count ∧ i < c.table.length ∧
        handle_search c rpdu =
          ({ table := c.table.set i
               { c.entry i with used_count := (c.entry i).used_count + 1 },
             entry_count := c.entry_count },
           .record { type := SEARCH, peerName := (c.entry i).peerName,
                     contentName := (c.entry i).contentName, addr := (c.entry i).addr,
                     padding := zeros 16 })) ∧
      (find_least_used c rpdu.contentName = -1 →
        handle_search c rpdu = (c, .simple (send_simple ERROR (lit "Content not found"))))) ∧
    ((catalogABC.entry 0).used_count = 2 ∧ (catalogABC.entry 1).used_count = 0 ∧
     (catalogABC.entry 2).used_count = 0 ∧
     (handle_search catalogABC (mkReq SEARCH (name10 "D") (name10 "song"))).2 =
       .record { type := SEARCH, peerName := name10 "B", contentName := name10 "song",
                 addr := ⟨2, 5002, 0x7f000001⟩, padding := zeros 16 } ∧
     ((handle_search catalogABC (mkReq SEARCH (name10 "D") (name10 "song"))).1.entry 1).used_count
       = 1 ∧
     (handle_search (handle_search catalogABC (mkReq SEARCH (name10 "D") (name10 "song"))).1
         (mkReq SEARCH (name10 "D") (name10 "song"))).2 =
       .record { type := SEARCH, peerName := name10 "C", contentName := name10 "song",
                 addr := ⟨2, 5003, 0x7f000001⟩, padding := zeros 16 }) := by
  refine ⟨fun c rpdu hwf => ⟨fun i hi => ?_, fun h => ?_⟩, by decide⟩
  · obtain ⟨h1, h2, _, h4⟩ := find_least_used_selected c rpdu.contentName i hi
    obtain ⟨hp, hn, hlo, _⟩ := entry_OK c hwf i
    refine ⟨h1, h2, ?_⟩
    unfold handle_search
    simp only [hi]
    have hne : ¬ ((i : Int) = -1) := by omega
    rw [if_neg hne]
    simp only [Int.toNat_ofNat]
    rw [strncpy_zeros_of_nameOK _ hp, strncpy_zeros_of_nameOK _ hn,
      wrap32_of_range _ (by omega) (by unfold INT_MAX at h4; omega)]
  · unfold handle_search
    simp [h]

set_option maxRecDepth 8000 in
theorem catalogABC_WF : catalogABC.WF := by decide

/-- The general statement of C3 applied to the example state, where `find_least_used`
selects entry 1 (B). -/
theorem handle_search_effect_witness :
    catalogABC.WF ∧ find_least_used catalogABC (name10 "song") = 1 ∧
    handle_search catalogABC (mkReq SEARCH (name10 "D") (name10 "song")) =
      ({ table := catalogABC.table.set 1
           { catalogABC.entry 1 with used_count := (catalogABC.entry 1).used_count + 1 },
         entry_count := catalogABC.entry_count },
       .record { type := SEARCH, peerName := (catalogABC.entry 1).peerName,
                 contentName := (catalogABC.entry 1).contentName,
                 addr := (catalogABC.entry 1).addr, padding := zeros 16 }) :=
  ⟨catalogABC_WF, by decide,
   ((handle_search_effect.1 catalogABC (mkReq SEARCH (name10 "D") (name10 "song"))
      catalogABC_WF).1 1 (by decide)).2.2⟩

/-! ## Well-formedness is preserved by every handler -/

theorem WF_set (c : Catalog) (hwf : c.WF) (i : Nat) (e : content_entry) (he : e.OK) :
    Catalog.WF { table := c.table.set i e, entry_count := c.entry_count } := by
  refine ⟨by simpa using hwf.1, hwf.2.1, fun x hx => ?_⟩
  rcases List.mem_or_eq_of_mem_set hx with h | h
  · exact hwf.2.2 x h
  · rw [h]; exact he

theorem Catalog.WF_empty : Catalog.empty.WF := by
  refine ⟨by simp [Catalog.empty], Nat.zero_le _, fun e he => ?_⟩
  have : e = content_entry.zero := List.eq_of_mem_replicate he
  rw [this]
  decide

theorem handle_register_WF (c : Catalog) (rpdu : register_pdu) (hwf : c.WF) :
    (handle_register c rpdu).1.WF := by
  by_cases hm : ∃ i, i < c.entry_count ∧ c.matchesExact rpdu.peerName rpdu.contentName i
  · rw [handle_register_of_match c rpdu hm]; exact hwf
  · have hno : ∀ i, i < c.entry_count → ¬ c.matchesExact rpdu.peerName rpdu.contentName i :=
      fun i hi h => hm ⟨i, hi, h⟩
    by_cases hfull : MAX_ENTRIES ≤ c.entry_count
    · rw [handle_register_of_full c rpdu hno hfull]; exact hwf
    · have hroom : c.entry_count < MAX_ENTRIES := Nat.lt_of_not_le hfull
      rw [handle_register_of_room c rpdu hno hroom]
      obtain ⟨hp, hn, _, _⟩ := entry_OK c hwf c.entry_count
      have hset := WF_set c hwf c.entry_count
        { peerName := strncpy (c.entry c.entry_count).peerName rpdu.peerName (NAME_LEN - 1),
          contentName :=
            strncpy (c.entry c.entry_count).contentName rpdu.contentName (NAME_LEN - 1),
          addr := rpdu.addr, used_count := 0, active := 1 }
        ⟨strncpy_nameOK _ _ hp, strncpy_nameOK _ _ hn, by norm_num, by unfold INT_MAX; norm_num⟩
      exact ⟨hset.1, hroom, hset.2.2⟩

theorem handle_search_WF (c : Catalog) (rpdu : register_pdu) (hwf : c.WF) :
    (handle_search c rpdu).1.WF := by
  rcases find_least_used_cases c rpdu.contentName with h | ⟨k, hk⟩
  · unfold handle_search; simp only [h, if_true]; exact hwf
  · obtain ⟨_, _, _, h4⟩ := find_least_used_selected c rpdu.contentName k hk
    obtain ⟨hp, hn, hlo, _⟩ := entry_OK c hwf k
    unfold handle_search
    simp only [hk]
    have hne : ¬ ((k : Int) = -1) := by omega
    rw [if_neg hne]
    simp only [Int.toNat_ofNat]
    refine WF_set c hwf k _ ⟨hp, hn, ?_, ?_⟩
    · simp only []
      rw [wrap32_of_range _ (by omega) (by unfold INT_MAX at h4; omega)]; omega
    · simp only []
      rw [wrap32_of_range _ (by omega) (by unfold INT_MAX at h4; omega)]; omega

theorem handle_deregister_WF (c : Catalog) (rpdu : register_pdu) (hwf : c.WF) :
    (handle_deregister c rpdu).1.WF := by
  rcases find_exact_cases c rpdu.peerName rpdu.contentName with h | ⟨k, hk⟩
  · unfold handle_deregister; simp only [h, if_true]; exact hwf
  · unfold handle_deregister
    simp only [hk]
    have hne : ¬ ((k : Int) = -1) := by omega
    rw [if_neg hne]
    simp only [Int.toNat_ofNat]
    exact WF_set c hwf k _ (entry_OK c hwf k)

theorem handle_quit_WF (c : Catalog) (rpdu : register_pdu) (hwf : c.WF) :
    (handle_quit c rpdu).1.WF := by
  have hlen := (handle_quit_fold rpdu.peerName c.table c.entry_count).1
  refine ⟨hlen.trans hwf.1, hwf.2.1, fun e he => ?_⟩
  obtain ⟨j, hj, rfl⟩ := List.getElem_of_mem he
  have hent : ((handle_quit c rpdu).1.table)[j] = (handle_quit c rpdu).1.entry j := by
    unfold Catalog.entry
    rw [List.getD_eq_getElem?_getD, List.getElem?_eq_getElem hj]
    rfl
  rw [hent, handle_quit_entry]
  have hok := entry_OK c hwf j
  split
  · exact hok
  · exact hok

theorem dispatch_WF (c : Catalog) (rpdu : register_pdu) (hwf : c.WF) :
    (dispatch c rpdu).1.WF := by
  unfold dispatch
  split
  · exact handle_register_WF c rpdu hwf
  · split
    · exact hwf
    · split
      · exact handle_search_WF c rpdu hwf
      · split
        · exact handle_deregister_WF c rpdu hwf
        · split
          · exact handle_quit_WF c rpdu hwf
          · exact hwf

/-- Every state the registry can reach is well formed. -/
theorem reachable_WF (c : Catalog) (h : Reachable c) : c.WF := by
  induction h with
  | init => exact Catalog.WF_empty
  | step c rpdu _ ih => exact dispatch_WF c rpdu ih

theorem reachable_runAll (c : Catalog) (rs : List register_pdu) (h : Reachable c) :
    Reachable (runAll c rs) := by
  induction rs generalizing c with
  | nil => exact h
  | cons r rs ih => exact ih _ (Reachable.step c r h)

/-! ## Least-used selection -/

/-- Least-used selection as the specification states it, for the states in which no active
matching entry has a saturated usage counter: `find_least_used` returns index `k` exactly
when entry `k` is active, matches, has the minimal counter among the active matching entries,
and no active matching entry at a lower index has the same counter; it returns `-1` exactly
when no active entry matches. -/
theorem find_least_used_spec (c : Catalog) (content : List Byte)
    (hsat : ∀ i, i < c.entry_count → c.matchesContent content i →
      (c.entry i).used_count < INT_MAX) :
    (∀ k : Nat, find_least_used c content = (k : Int) ↔
      (k < c.entry_count ∧ c.matchesContent content k ∧
        (∀ i, i < c.entry_count → c.matchesContent content i →
          (c.entry k).used_count ≤ (c.entry i).used_count) ∧
        (∀ i, i < k → c.matchesContent content i →
          (c.entry i).used_count ≠ (c.entry k).used_count))) ∧
    (find_least_used c content = -1 ↔
      ∀ i, i < c.entry_count → ¬ c.matchesContent content i) := by
  constructor
  · intro k
    rw [find_least_used_eq_index]
    constructor
    · rintro ⟨h1, h2, _, h4, h5⟩
      exact ⟨h1, h2, h4, fun i hi hm => by have := h5 i hi hm; omega⟩
    · rintro ⟨h1, h2, h4, h5⟩
      refine ⟨h1, h2, hsat k h1 h2, h4, fun i hi hm => ?_⟩
      have e1 := h4 i (lt_trans hi h1) hm
      have e2 := h5 i hi hm
      omega
  · rw [find_least_used_eq_neg_one]
    constructor
    · intro h i hi hm
      have := h i hi hm
      have := hsat i hi hm
      omega
    · intro h i hi hm
      exact absurd hm (h i hi)

theorem find_least_used_spec_witness :
    find_least_used catalogABC (name10 "song") = 1 ∧
    (find_least_used catalogABC (name10 "song") = (1 : Nat) ↔
      ((1 : Nat) < catalogABC.entry_count ∧ catalogABC.matchesContent (name10 "song") 1 ∧
        (∀ i, i < catalogABC.entry_count → catalogABC.matchesContent (name10 "song") i →
          (catalogABC.entry 1).used_count ≤ (catalogABC.entry i).used_count) ∧
        (∀ i, i < 1 → catalogABC.matchesContent (name10 "song") i →
          (catalogABC.entry i).used_count ≠ (catalogABC.entry 1).used_count))) :=
  ⟨by decide, (find_least_used_spec catalogABC (name10 "song") (by decide)).1 1⟩

/-- The Search handler when `find_least_used` selects entry `i`. -/
theorem handle_search_of_selected (c : Catalog) (rpdu : register_pdu) (hwf : c.WF) (i : Nat)
    (hi : find_least_used c rpdu.contentName = (i : Int)) :
    handle_search c rpdu =
      ({ table := c.table.set i { c.entry i with used_count := (c.entry i).used_count + 1 },
         entry_count := c.entry_count },
       .record { type := SEARCH, peerName := (c.entry i).peerName,
                 contentName := (c.entry i).contentName, addr := (c.entry i).addr,
                 padding := zeros 16 }) := by
  obtain ⟨_, _, _, h4⟩ := find_least_used_selected c rpdu.contentName i hi
  obtain ⟨hp, hn, hlo, _⟩ := entry_OK c hwf i
  unfold handle_search
  simp only [hi]
  have hne : ¬ ((i : Int) = -1) := by omega
  rw [if_neg hne]
  simp only [Int.toNat_ofNat]
  rw [strncpy_zeros_of_nameOK _ hp, strncpy_zeros_of_nameOK _ hn,
    wrap32_of_range _ (by omega) (by unfold INT_MAX at h4; omega)]

set_option maxRecDepth 8000 in
theorem catalogOne_WF : catalogOne.WF := by decide

theorem catalogOne_length : catalogOne.table.length = MAX_ENTRIES := catalogOne_WF.1

theorem catalogUsed_entry_zero (n : Int) :
    (catalogUsed n).entry 0 = { catalogOne.entry 0 with used_count := n } := by
  unfold catalogUsed Catalog.entry
  rw [getD_set_eq]
  have h0 : 0 < catalogOne.table.length := by
    rw [catalogOne_length]; unfold MAX_ENTRIES; norm_num
  rw [if_pos ⟨rfl, h0⟩]

theorem catalogUsed_WF (n : Int) (h0 : 0 ≤ n) (h1 : n ≤ INT_MAX) : (catalogUsed n).WF := by
  unfold catalogUsed
  have hok := entry_OK catalogOne catalogOne_WF 0
  exact WF_set catalogOne catalogOne_WF 0 _ ⟨hok.1, hok.2.1, by simp only []; omega, h1⟩

set_option maxRecDepth 8000 in
theorem catalogUsed_zero : catalogUsed 0 = catalogOne := by decide

theorem find_least_used_catalogUsed (n : Int) (h : n < INT_MAX) :
    find_least_used (catalogUsed n) (name10 "song") = ((0 : Nat) : Int) := by
  rw [find_least_used_eq_index]
  have hm : (catalogUsed n).matchesContent (name10 "song") 0 := by
    unfold Catalog.matchesContent
    rw [catalogUsed_entry_zero]
    refine ⟨?_, ?_⟩
    · show (catalogOne.entry 0).active ≠ 0
      decide
    · show strncmp (catalogOne.entry 0).contentName (name10 "song") NAME_LEN = 0
      decide
  have hec : (catalogUsed n).entry_count = 1 := rfl
  refine ⟨by rw [hec]; decide, hm, by rw [catalogUsed_entry_zero]; exact h, fun i hi _ => ?_,
    fun i hi _ => absurd hi (Nat.not_lt_zero i)⟩
  have : i = 0 := by rw [hec] at hi; omega
  subst this
  exact le_refl _

theorem dispatch_search (c : Catalog) (peer content : List Byte) :
    dispatch c (mkReq SEARCH peer content) = handle_search c (mkReq SEARCH peer content) := by
  unfold dispatch
  have h1 : ¬ (mkReq SEARCH peer content).type = REGISTER := by
    show ¬ SEARCH = REGISTER
    decide
  have h2 : ¬ (mkReq SEARCH peer content).type = ONLINE := by
    show ¬ SEARCH = ONLINE
    decide
  have h3 : (mkReq SEARCH peer content).type = SEARCH := rfl
  rw [if_neg h1, if_neg h2, if_pos h3]

theorem search_catalogUsed (n : Nat) (h : (n : Int) < INT_MAX) :
    (dispatch (catalogUsed n) (mkReq SEARCH (name10 "D") (name10 "song"))).1 =
      catalogUsed (n + 1 : Nat) := by
  have hwf : (catalogUsed n).WF := catalogUsed_WF n (Int.natCast_nonneg n) (le_of_lt h)
  have hsel : find_least_used (catalogUsed n)
      (mkReq SEARCH (name10 "D") (name10 "song")).contentName = ((0 : Nat) : Int) :=
    find_least_used_catalogUsed n h
  rw [dispatch_search, handle_search_of_selected _ _ hwf 0 hsel, catalogUsed_entry_zero]
  show ({ table := (catalogOne.table.set 0 _).set 0 _, entry_count := 1 } : Catalog) = _
  rw [List.set_set]
  unfold catalogUsed
  push_cast
  rfl

theorem searchTimes_catalogUsed (n m : Nat) (h : ((m + n : Nat) : Int) ≤ INT_MAX) :
    searchTimes (mkReq SEARCH (name10 "D") (name10 "song")) n (catalogUsed m) =
      catalogUsed (m + n : Nat) := by
  induction n generalizing m with
  | zero => rfl
  | succ n ih =>
    unfold searchTimes
    rw [search_catalogUsed m (by push_cast at h ⊢; omega), ih (m + 1) (by push_cast at h ⊢; omega)]
    congr 2
    omega

theorem reachable_searchTimes (rpdu : register_pdu) (n : Nat) (c : Catalog) (h : Reachable c) :
    Reachable (searchTimes rpdu n c) := by
  induction n generalizing c with
  | zero => exact h
  | succ n ih => exact ih _ (Reachable.step c rpdu h)

theorem handle_register_type (c : Catalog) (rpdu : register_pdu) (ty : Byte) :
    handle_register c { rpdu with type := ty } = handle_register c rpdu := rfl

theorem reachable_register (c : Catalog) (rpdu : register_pdu) (h : Reachable c) :
    Reachable (handle_register c rpdu).1 := by
  have := Reachable.step c { rpdu with type := REGISTER } h
  unfold dispatch at this
  rw [if_pos rfl, handle_register_type] at this
  exact this

theorem reachable_registerAll (c : Catalog) (rs : List register_pdu) (h : Reachable c) :
    Reachable (registerAll c rs) := by
  induction rs generalizing c with
  | nil => exact h
  | cons r rs ih => exact ih _ (reachable_register c r h)

/-- The state in which the single entry's usage counter has reached `INT_MAX` is reached by
one registration followed by `2^31 - 1` searches. -/
theorem reachable_catalogUsed_max : Reachable (catalogUsed INT_MAX) := by
  have h := searchTimes_catalogUsed 2147483647 0 (by unfold INT_MAX; norm_num)
  have hr := reachable_searchTimes (mkReq SEARCH (name10 "D") (name10 "song")) 2147483647
    (catalogUsed 0) (by rw [catalogUsed_zero]; exact reachable_registerAll _ _ Reachable.init)
  have e1 : catalogUsed ((0 : Nat) : Int) = catalogUsed 0 := rfl
  have e2 : catalogUsed ((0 + 2147483647 : Nat) : Int) = catalogUsed INT_MAX := by
    congr 1
  rw [e1, e2] at h
  rw [h] at hr
  exact hr

/-- C2 (failing input). In the reachable state whose single entry for `song` is active with
usage counter `0x7fffffff`, `find_least_used` returns `-1` although an active entry matches
the content name: the counter is never below the initial `best_count`. -/
theorem find_least_used_saturated :
    Reachable (catalogUsed INT_MAX) ∧
    0 < (catalogUsed INT_MAX).entry_count ∧
    (catalogUsed INT_MAX).matchesContent (name10 "song") 0 ∧
    find_least_used (catalogUsed INT_MAX) (name10 "song") = -1 ∧
    (handle_search (catalogUsed INT_MAX) (mkReq SEARCH (name10 "D") (name10 "song"))).2 =
      .simple (send_simple ERROR (lit "Content not found")) :=
  ⟨reachable_catalogUsed_max, by decide, by decide, by decide, by decide⟩

/-! ## Uniqueness of registrations -/

/-- C1 (failing input). Two Register requests whose name fields hold ten non-NUL bytes are
both acknowledged, and leave two active entries with the same stored names: the stored copy
is cut to nine characters while `find_exact` compares all ten bytes of the request. -/
theorem register_ten_byte_name_twice :
    (handle_register Catalog.empty (mkReq REGISTER tenA tenA)).2 =
      .simple (send_simple ACKNOWLEDGEMENT (lit "Registered")) ∧
    (handle_register (handle_register Catalog.empty (mkReq REGISTER tenA tenA)).1
        (mkReq REGISTER tenA tenA)).2 =
      .simple (send_simple ACKNOWLEDGEMENT (lit "Registered")) ∧
    (registerAll Catalog.empty [mkReq REGISTER tenA tenA, mkReq REGISTER tenA tenA]).entry_count
      = 2 ∧
    ((registerAll Catalog.empty [mkReq REGISTER tenA tenA, mkReq REGISTER tenA tenA]).entry 0).active
      = 1 ∧
    ((registerAll Catalog.empty [mkReq REGISTER tenA tenA, mkReq REGISTER tenA tenA]).entry 1).active
      = 1 ∧
    ((registerAll Catalog.empty [mkReq REGISTER tenA tenA, mkReq REGISTER tenA tenA]).entry 0).peerName
      = ((registerAll Catalog.empty
          [mkReq REGISTER tenA tenA, mkReq REGISTER tenA tenA]).entry 1).peerName ∧
    ((registerAll Catalog.empty
        [mkReq REGISTER tenA tenA, mkReq REGISTER tenA tenA]).entry 0).contentName
      = ((registerAll Catalog.empty
          [mkReq REGISTER tenA tenA, mkReq REGISTER tenA tenA]).entry 1).contentName ∧
    ¬ (registerAll Catalog.empty
        [mkReq REGISTER tenA tenA, mkReq REGISTER tenA tenA]).UniqueActive := by
  decide

/-! ## A reachable state with 200 active entries -/

theorem strncmp_cons_eq_zero (x y : Byte) (a b : List Byte) (n : Nat)
    (h : strncmp (x :: a) (y :: b) (n + 1) = 0) : x = y ∧ (x = 0 ∨ strncmp a b n = 0) := by
  unfold strncmp at h
  simp only [List.headD_cons, List.tail_cons] at h
  by_cases hxy : x = y
  · subst hxy
    refine ⟨rfl, ?_⟩
    by_cases hx : x = 0
    · exact Or.inl hx
    · right
      simpa [hx] using h
  · exfalso
    rw [if_pos hxy] at h
    apply hxy
    apply Fin.ext
    omega

theorem fullName_distinct (i j : Nat) (hi : i < MAX_ENTRIES) (hj : j < MAX_ENTRIES)
    (h : strncmp (fullName i) (fullName j) NAME_LEN = 0) : i = j := by
  unfold MAX_ENTRIES at hi hj
  unfold fullName NAME_LEN at h
  obtain ⟨h1, h2⟩ := strncmp_cons_eq_zero _ _ _ _ _ h
  have e1 := congrArg Fin.val h1
  simp only [Fin.ofNat, Fin.val_mk] at e1
  rcases h2 with h2 | h2
  · have e0 := congrArg Fin.val h2
    simp only [Fin.ofNat, Fin.val_mk, Fin.val_zero] at e0
    omega
  · obtain ⟨h3, _⟩ := strncmp_cons_eq_zero _ _ _ _ _ h2
    have e2 := congrArg Fin.val h3
    simp only [Fin.ofNat, Fin.val_mk] at e2
    omega

theorem fullName_OK (i : Nat) (hi : i < MAX_ENTRIES) : NameOK (fullName i) := by
  unfold MAX_ENTRIES at hi
  have h1 : (Fin.ofNat (65 + i / 16) : Byte) ≠ 0 := by
    intro h
    have e := congrArg Fin.val h
    simp only [Fin.ofNat, Fin.val_mk, Fin.val_zero] at e
    omega
  have h2 : (Fin.ofNat (65 + i % 16) : Byte) ≠ 0 := by
    intro h
    have e := congrArg Fin.val h
    simp only [Fin.ofNat, Fin.val_mk, Fin.val_zero] at e
    omega
  have hc : cstr (fullName i) = [Fin.ofNat (65 + i / 16), Fin.ofNat (65 + i % 16)] := by
    unfold fullName cstr
    simp [List.takeWhile_cons, h1, h2]
  unfold NameOK strlen
  rw [hc]
  exact ⟨by simp [NAME_LEN], rfl⟩

/-- Copying a stored-form name into a stored name field reproduces it. -/
theorem strncpy_of_nameOK (dst src : List Byte) (hd : NameOK dst) (hs : NameOK src) :
    strncpy dst src (NAME_LEN - 1) = src := by
  have h : strncpy dst src (NAME_LEN - 1) = strncpy (zeros NAME_LEN) src (NAME_LEN - 1) := by
    unfold strncpy
    simp only []
    rw [hd.drop_nine, nameOK_zeros.drop_nine]
  rw [h, strncpy_zeros_of_nameOK src hs]

theorem registerAll_append (c : Catalog) (rs : List register_pdu) (r : register_pdu) :
    registerAll c (rs ++ [r]) = (handle_register (registerAll c rs) r).1 := by
  unfold registerAll
  rw [List.foldl_append]
  rfl

theorem catalogUpTo_succ (n : Nat) :
    catalogUpTo (n + 1) = (handle_register (catalogUpTo n) (fullReq n)).1 := by
  unfold catalogUpTo
  rw [List.range_succ, List.map_append, List.map_singleton, registerAll_append]

theorem nameOK_X : NameOK (name10 "X") := by decide

/-- After `n ≤ 200` registrations the first `n` slots hold the `n` publishers, all active. -/
theorem catalogUpTo_spec (n : Nat) (hn : n ≤ MAX_ENTRIES) :
    (catalogUpTo n).entry_count = n ∧ (catalogUpTo n).WF ∧
    ∀ i, i < n → (catalogUpTo n).entry i =
      { peerName := fullName i, contentName := name10 "X", addr := ⟨2, 6000 + i, 0x7f000001⟩,
        used_count := 0, active := 1 } := by
  induction n with
  | zero =>
    exact ⟨rfl, Catalog.WF_empty, fun i hi => absurd hi (Nat.not_lt_zero i)⟩
  | succ n ih =>
    obtain ⟨hec, hwf, hent⟩ := ih (Nat.le_of_succ_le hn)
    have hlt : n < MAX_ENTRIES := hn
    have hno : ∀ i, i < (catalogUpTo n).entry_count →
        ¬ (catalogUpTo n).matchesExact (fullReq n).peerName (fullReq n).contentName i := by
      intro i hi hm
      rw [hec] at hi
      have h1 := hm.2.1
      rw [hent i hi] at h1
      have := fullName_distinct i n (lt_trans hi hlt) hlt h1
      omega
    have hreg := handle_register_of_room (catalogUpTo n) (fullReq n) hno (by rw [hec]; exact hlt)
    obtain ⟨hp, hc, _, _⟩ := entry_OK (catalogUpTo n) hwf (catalogUpTo n).entry_count
    rw [show (fullReq n).peerName = fullName n from rfl,
      show (fullReq n).contentName = name10 "X" from rfl,
      strncpy_of_nameOK _ _ hp (fullName_OK n hlt), strncpy_of_nameOK _ _ hc nameOK_X, hec]
      at hreg
    have hwf2 : (catalogUpTo (n + 1)).WF := by
      rw [catalogUpTo_succ]; exact handle_register_WF _ _ hwf
    rw [catalogUpTo_succ, hreg]
    rw [catalogUpTo_succ, hreg] at hwf2
    refine ⟨rfl, hwf2, fun i hi => ?_⟩
    unfold Catalog.entry
    show List.getD ((catalogUpTo n).table.set n _) i _ = _
    rw [getD_set_eq]
    by_cases hin : n = i
    · subst hin
      have : n < (catalogUpTo n).table.length := by rw [hwf.1]; exact hlt
      rw [if_pos ⟨rfl, this⟩]
      rfl
    · rw [if_neg (fun h => hin h.1)]
      exact hent i (by omega)

theorem activeCount_of_all_active (c : Catalog)
    (h : ∀ i, i < c.entry_count → (c.entry i).active ≠ 0) : c.activeCount = c.entry_count := by
  unfold Catalog.activeCount
  rw [List.filter_eq_self.2]
  · exact List.length_range _
  · intro i hi
    simpa using h i (List.mem_range.1 hi)

theorem catalogFull_entry (i : Nat) (hi : i < MAX_ENTRIES) :
    catalogFull.entry i =
      { peerName := fullName i, contentName := name10 "X", addr := ⟨2, 6000 + i, 0x7f000001⟩,
        used_count := 0, active := 1 } :=
  (catalogUpTo_spec MAX_ENTRIES (le_refl _)).2.2 i hi

theorem catalogFull_entry_count : catalogFull.entry_count = MAX_ENTRIES :=
  (catalogUpTo_spec MAX_ENTRIES (le_refl _)).1

theorem catalogFull_activeCount : catalogFull.activeCount = MAX_ENTRIES := by
  rw [activeCount_of_all_active, catalogFull_entry_count]
  intro i hi
  rw [catalogFull_entry_count] at hi
  rw [catalogFull_entry i hi]
  show (1 : Int) ≠ 0
  decide

theorem catalogFull_reachable : Reachable catalogFull :=
  reachable_registerAll _ _ Reachable.init

/-- No entry of the full example state matches publisher `Z`. -/
theorem catalogFull_no_Z (content : List Byte) :
    ¬ ∃ i, i < catalogFull.entry_count ∧ catalogFull.activeFor (name10 "Z") content i := by
  rintro ⟨i, hi, hm0⟩
  have hm := (activeFor_iff catalogFull _ _ i).1 hm0
  rw [catalogFull_entry_count] at hi
  have h1 := hm.2.1
  rw [catalogFull_entry i hi] at h1
  unfold MAX_ENTRIES at hi
  have hz : name10 "Z" = [90, 0, 0, 0, 0, 0, 0, 0, 0, 0] := by decide
  rw [hz] at h1
  unfold fullName NAME_LEN at h1
  obtain ⟨h2, _⟩ := strncmp_cons_eq_zero _ _ _ _ _ h1
  have e : (65 + i / 16) % 256 = 90 := congrArg Fin.val h2
  omega

/-- C5. Capacity ceiling: in every catalog state (in particular every state reachable from
the empty catalog) in which the number of active entries equals `MAX_ENTRIES = 200`, every
Register request that duplicates no active entry is answered Error "Server storage full" and
leaves the table and `entry_count` unchanged. -/
theorem handle_register_capacity (c : Catalog) (rpdu : register_pdu)
    (hfull : c.activeCount = MAX_ENTRIES)
    (hnew : ¬ ∃ i, i < c.entry_count ∧ c.activeFor rpdu.peerName rpdu.contentName i) :
    handle_register c rpdu = (c, .simple (send_simple ERROR (lit "Server storage full"))) ∧
    (handle_register c rpdu).1.table = c.table ∧
    (handle_register c rpdu).1.entry_count = c.entry_count := by
  have hle : MAX_ENTRIES ≤ c.entry_count := by
    rw [← hfull]; exact activeCount_le c
  rw [handle_register_of_full c rpdu
    (fun i hi hm => hnew ⟨i, hi, (activeFor_iff c _ _ i).2 hm⟩) hle]
  exact ⟨rfl, rfl, rfl⟩

/-- The capacity ceiling at a reachable state holding 200 active entries. -/
theorem handle_register_capacity_witness :
    Reachable catalogFull ∧ catalogFull.activeCount = MAX_ENTRIES ∧
    (¬ ∃ i, i < catalogFull.entry_count ∧
      catalogFull.activeFor (name10 "Z") (name10 "X") i) ∧
    handle_register catalogFull (mkRegister "Z" "X" 7000) =
      (catalogFull, .simple (send_simple ERROR (lit "Server storage full"))) :=
  ⟨catalogFull_reachable, catalogFull_activeCount, catalogFull_no_Z _,
   (handle_register_capacity catalogFull (mkRegister "Z" "X" 7000) catalogFull_activeCount
      (catalogFull_no_Z _)).1⟩

/-! ## The Online listing -/

theorem cstr_eq_self (l : List Byte) (h : ∀ b ∈ l, b ≠ 0) : cstr l = l := by
  have := cstr_append l [] h
  simpa [cstr] using this

theorem strlen_eq_length (l : List Byte) (h : ∀ b ∈ l, b ≠ 0) : strlen l = l.length := by
  unfold strlen; rw [cstr_eq_self l h]

theorem take_ne_zero (l : List Byte) (n : Nat) (h : ∀ b ∈ l, b ≠ 0) :
    ∀ b ∈ l.take n, b ≠ 0 :=
  fun b hb => h b (List.mem_of_mem_take hb)

theorem append_ne_zero (l m : List Byte) (h1 : ∀ b ∈ l, b ≠ 0) (h2 : ∀ b ∈ m, b ≠ 0) :
    ∀ b ∈ l ++ m, b ≠ 0 := by
  intro b hb
  rcases List.mem_append.1 hb with h | h
  · exact h1 b h
  · exact h2 b h

/-- Appending to a buffer that holds the first `N` bytes of `L`, with room up to `N`. -/
theorem take_append_take (L x : List Byte) (N : Nat) :
    L.take N ++ x.take (N - (L.take N).length) = (L ++ x).take N := by
  rw [List.take_append_eq_append_take]
  by_cases h : L.length ≤ N
  · rw [List.take_of_length_le h]
  · have h1 : (L.take N).length = N := by
      rw [List.length_take]; omega
    have h2 : N - L.length = 0 := by omega
    rw [h1, h2, Nat.sub_self]

/-- One bounded `strncat` of the listing loop. -/
theorem strncat_listing (L x : List Byte) (hL : ∀ b ∈ L, b ≠ 0) (hx : ∀ b ∈ x, b ≠ 0) :
    strncat (L.take 1022) x (1024 - strlen (L.take 1022) - 2) = (L ++ x).take 1022 := by
  unfold strncat
  rw [strlen_eq_length _ (take_ne_zero L 1022 hL), cstr_eq_self x hx]
  have : 1024 - (L.take 1022).length - 2 = 1022 - (L.take 1022).length := by omega
  rw [this, take_append_take]

set_option maxRecDepth 8000 in
theorem lit_by_ne_zero : ∀ b ∈ lit " (by ", b ≠ 0 := by decide

set_option maxRecDepth 8000 in
theorem lit_close_ne_zero : ∀ b ∈ lit ")\n", b ≠ 0 := by decide

set_option maxRecDepth 8000 in
theorem lit_none_ne_zero : ∀ b ∈ lit "No content registered", b ≠ 0 := by decide


theorem entry_line_ne_zero (e : content_entry) : ∀ b ∈ entry_line e, b ≠ 0 := by
  unfold entry_line
  exact append_ne_zero _ _ (append_ne_zero _ _ (append_ne_zero _ _ (cstr_ne_zero _)
    lit_by_ne_zero) (cstr_ne_zero _)) lit_close_ne_zero

theorem listing_upto_ne_zero (c : Catalog) (n : Nat) : ∀ b ∈ listing_upto c n, b ≠ 0 := by
  induction n with
  | zero => intro b hb; simp [listing_upto] at hb
  | succ n ih =>
    unfold listing_upto
    apply append_ne_zero _ _ ih
    split
    · exact entry_line_ne_zero _
    · intro b hb; simp at hb

theorem listing_ne_zero (c : Catalog) : ∀ b ∈ listing c, b ≠ 0 :=
  listing_upto_ne_zero c c.entry_count

theorem cstr_cstr (a : List Byte) : cstr (cstr a) = cstr a := cstr_eq_self _ (cstr_ne_zero a)

/-- One iteration of the listing loop on a buffer holding the first 1022 bytes of `L`. -/
theorem handle_online_step_take (c : Catalog) (L : List Byte) (i : Nat)
    (hL : ∀ b ∈ L, b ≠ 0) :
    handle_online_step c (L.take 1022) i =
      (L ++ (if (c.entry i).active ≠ 0 then entry_line (c.entry i) else [])).take 1022 := by
  unfold handle_online_step
  by_cases ha : (c.entry i).active = 0
  · simp [ha]
  · rw [if_neg ha, if_pos ha]
    simp only []
    have s1 : strncat (L.take 1022) (c.entry i).contentName (1024 - strlen (L.take 1022) - 2) =
        (L ++ cstr (c.entry i).contentName).take 1022 := by
      have := strncat_listing L (cstr (c.entry i).contentName) hL (cstr_ne_zero _)
      unfold strncat at this ⊢
      rw [cstr_cstr] at this
      exact this
    have h1 := append_ne_zero _ _ hL (cstr_ne_zero (c.entry i).contentName)
    have h2 := append_ne_zero _ _ h1 lit_by_ne_zero
    have h3 := append_ne_zero _ _ h2 (cstr_ne_zero (c.entry i).peerName)
    have s3 : ∀ M : List Byte, (∀ b ∈ M, b ≠ 0) →
        strncat (M.take 1022) (c.entry i).peerName (1024 - strlen (M.take 1022) - 2) =
        (M ++ cstr (c.entry i).peerName).take 1022 := by
      intro M hM
      have := strncat_listing M (cstr (c.entry i).peerName) hM (cstr_ne_zero _)
      unfold strncat at this ⊢
      rw [cstr_cstr] at this
      exact this
    rw [s1, strncat_listing _ _ h1 lit_by_ne_zero, s3 _ h2,
      strncat_listing _ _ h3 lit_close_ne_zero]
    unfold entry_line
    simp only [List.append_assoc]

theorem handle_online_fold (c : Catalog) (n : Nat) :
    (List.range n).foldl (handle_online_step c) [] = (listing_upto c n).take 1022 := by
  induction n with
  | zero => rfl
  | succ n ih =>
    rw [List.range_succ, List.foldl_append, ih]
    simp only [List.foldl_cons, List.foldl_nil]
    rw [handle_online_step_take c _ n (listing_upto_ne_zero c n)]
    rfl

theorem handle_online_buf_eq (c : Catalog) : handle_online_buf c = (listing c).take 1022 :=
  handle_online_fold c c.entry_count

/-- The text carried by the record of `send_simple` is the first 99 characters of the
message. -/
theorem send_simple_text (ty : Byte) (msg : List Byte) (h : ∀ b ∈ msg, b ≠ 0) :
    cstr (send_simple ty msg).data = msg.take 99 := by
  unfold send_simple
  simp only []
  unfold strncpy
  simp only []
  rw [cstr_eq_self (msg.take (100 - 1)) (take_ne_zero msg _ h)]
  rw [List.append_assoc, cstr_append _ _ (take_ne_zero msg _ h)]
  have hz : cstr (zeros (100 - 1 - (List.take (100 - 1) msg).length) ++ List.drop (100 - 1) (zeros 100)) = [] := by
    have hd : List.drop (100 - 1) (zeros 100) = zeros 1 := by decide
    rw [hd, ← zeros_add]
    exact cstr_zeros_only _
  rw [hz, List.append_nil]

theorem listing_upto_eq_nil (c : Catalog) (n : Nat) :
    listing_upto c n = [] ↔ ∀ i, i < n → (c.entry i).active = 0 := by
  induction n with
  | zero => simp [listing_upto]
  | succ n ih =>
    unfold listing_upto
    rw [List.append_eq_nil, ih]
    constructor
    · rintro ⟨h1, h2⟩ i hi
      rcases Nat.lt_succ_iff_lt_or_eq.mp hi with h | h
      · exact h1 i h
      · subst h
        by_contra ha
        rw [if_pos ha] at h2
        have := congrArg List.length h2
        simp [entry_line, lit] at this
    · intro h
      refine ⟨fun i hi => h i (Nat.lt_succ_of_lt hi), ?_⟩
      have := h n (Nat.lt_succ_self n)
      simp [this]

theorem activeCount_eq_zero (c : Catalog) :
    c.activeCount = 0 ↔ ∀ i, i < c.entry_count → (c.entry i).active = 0 := by
  unfold Catalog.activeCount
  rw [List.length_eq_zero, List.filter_eq_nil_iff]
  constructor
  · intro h i hi
    have := h i (List.mem_range.2 hi)
    simpa using this
  · intro h i hi
    have := h i (List.mem_range.1 hi)
    simpa using this

/-- The text of the Online reply in every state: the first 99 bytes of the listing, or the
fixed message when no entry is active. -/
theorem online_text_eq (c : Catalog) :
    (handle_online c).1 = c ∧
    (∃ sp : simple_pdu, (handle_online c).2 = .simple sp ∧ sp.type = ONLINE) ∧
    (0 < c.activeCount → online_text c = (listing c).take 99) ∧
    (c.activeCount = 0 → online_text c = lit "No content registered") := by
  refine ⟨rfl, ⟨_, rfl, rfl⟩, fun hpos => ?_, fun hzero => ?_⟩
  · have hne : listing c ≠ [] := by
      intro h
      have := (activeCount_eq_zero c).2 ((listing_upto_eq_nil c c.entry_count).1 h)
      omega
    have hlen : strlen (handle_online_buf c) ≠ 0 := by
      rw [handle_online_buf_eq, strlen_eq_length _ (take_ne_zero _ _ (listing_ne_zero c))]
      rw [List.length_take]
      have : 0 < (listing c).length := List.length_pos.2 hne
      omega
    unfold online_text handle_online Datagram.text
    simp only [if_pos hlen]
    rw [send_simple_text _ _ (by
      rw [handle_online_buf_eq]; exact take_ne_zero _ _ (listing_ne_zero c))]
    rw [handle_online_buf_eq, List.take_take]
    rfl
  · have hnil : listing c = [] :=
      (listing_upto_eq_nil c c.entry_count).2 ((activeCount_eq_zero c).1 hzero)
    have hlen : ¬ strlen (handle_online_buf c) ≠ 0 := by
      rw [handle_online_buf_eq, hnil]; decide
    unfold online_text handle_online Datagram.text
    simp only [if_neg hlen]
    rw [send_simple_text _ _ lit_none_ne_zero]
    decide

theorem entry_line_length_le (e : content_entry) (h : e.OK) : (entry_line e).length ≤ 25 := by
  have h1 := h.1.1
  have h2 := h.2.1.1
  have e1 : (lit " (by ").length = 5 := by decide
  have e2 : (lit ")\n").length = 2 := by decide
  unfold entry_line
  simp only [List.length_append, e1, e2]
  unfold strlen NAME_LEN at h1 h2
  omega

theorem listing_upto_length_le (c : Catalog) (hwf : c.WF) (n : Nat) :
    (listing_upto c n).length ≤
      25 * ((List.range n).filter (fun i => decide ((c.entry i).active ≠ 0))).length := by
  induction n with
  | zero => simp [listing_upto]
  | succ n ih =>
    unfold listing_upto
    rw [List.range_succ, List.filter_append, List.length_append, List.length_append]
    by_cases ha : (c.entry n).active ≠ 0
    · have hl := entry_line_length_le (c.entry n) (entry_OK c hwf n)
      rw [if_pos ha]
      have : ([n].filter (fun i => decide ((c.entry i).active ≠ 0))).length = 1 := by
        simp [List.filter_cons, ha]
      omega
    · rw [if_neg ha]
      simp only [List.length_nil]
      omega

theorem listing_length_le (c : Catalog) (hwf : c.WF) :
    (listing c).length ≤ 25 * c.activeCount :=
  listing_upto_length_le c hwf c.entry_count

set_option maxRecDepth 8000 in
theorem catalogFive_WF : catalogFive.WF := by decide

set_option maxRecDepth 8000 in
theorem catalogXYZ_WF : catalogXYZ.WF := by decide

set_option maxRecDepth 16000 in
/-- C9 (counterexample). With five active entries whose names have nine characters, the
listing of all active entries is 125 bytes long but the Online reply carries only its first
99 bytes: `send_simple` copies at most 99 characters into the 100-byte `data` field. -/
theorem online_listing_truncated :
    Reachable catalogFive ∧ catalogFive.activeCount = 5 ∧
    (listing catalogFive).length = 125 ∧
    (online_text catalogFive).length = 99 ∧
    online_text catalogFive ≠ listing catalogFive ∧
    ¬ (∀ c : Catalog, 0 < c.activeCount → online_text c = listing c) :=
  ⟨reachable_registerAll _ _ Reachable.init, by decide, by decide, by decide, by decide,
   fun h => absurd (h catalogFive (by decide)) (by decide)⟩

/-- C9 (amended). For every well-formed catalog state, `handle_online` leaves the state
unchanged and replies with a `simple_pdu` of kind Online whose text is: with at least one
active entry, the first 99 bytes of the concatenation, in table order, of one line
`contentName (by peerName)` terminated by a newline for every active entry; this is the whole
concatenation (so every active entry appears) whenever the concatenation is at most 99 bytes
long, in particular whenever at most three entries are active; and with no active entry the
text is "No content registered". -/
theorem online_listing_first_99 (c : Catalog) (hwf : c.WF) :
    (handle_online c).1 = c ∧
    (∃ sp : simple_pdu, (handle_online c).2 = .simple sp ∧ sp.type = ONLINE) ∧
    (0 < c.activeCount → online_text c = (listing c).take 99) ∧
    (0 < c.activeCount → (listing c).length ≤ 99 → online_text c = listing c) ∧
    (0 < c.activeCount → c.activeCount ≤ 3 → online_text c = listing c) ∧
    (c.activeCount = 0 → online_text c = lit "No content registered") := by
  obtain ⟨h1, h2, h3, h4⟩ := online_text_eq c
  refine ⟨h1, h2, h3, fun hpos hlen => ?_, fun hpos hle => ?_, h4⟩
  · rw [h3 hpos, List.take_of_length_le hlen]
  · have := listing_length_le c hwf
    rw [h3 hpos, List.take_of_length_le (by omega)]

/-- The amended statement at the example state with three active entries: the reply
carries the complete listing. -/
theorem online_listing_first_99_witness :
    catalogXYZ.WF ∧ catalogXYZ.activeCount = 3 ∧
    online_text catalogXYZ = listing catalogXYZ ∧
    listing catalogXYZ = lit "X (by P1)\nY (by P1)\nZ (by P2)\n" :=
  ⟨catalogXYZ_WF, by decide,
   (online_listing_first_99 catalogXYZ catalogXYZ_WF).2.2.2.2.1 (by decide) (by decide),
   by decide⟩

/-! ## Lemmas on `recv` and `recv_all` -/

theorem recv_bytes (s : Sock) (n : Nat) : (recv s n).1 ++ Sock.bytes (recv s n).2 = Sock.bytes s := by
  cases s with
  | nil => rfl
  | cons seg rest =>
    unfold recv
    simp only []
    split
    · rfl
    · simp only [Sock.bytes]
      rw [← List.append_assoc, List.take_append_drop]

theorem recv_length_le (s : Sock) (n : Nat) : (recv s n).1.length ≤ n := by
  cases s with
  | nil => simp [recv]
  | cons seg rest =>
    unfold recv
    simp only []
    split
    · assumption
    · simp only [List.length_take]; omega

theorem Sock.Valid.tail {seg : List Byte} {rest : Sock} (h : Sock.Valid (seg :: rest)) :
    Sock.Valid rest :=
  fun x hx => h x (List.mem_cons_of_mem _ hx)

theorem Sock.Valid.head {seg : List Byte} {rest : Sock} (h : Sock.Valid (seg :: rest)) :
    seg ≠ [] :=
  h seg (List.mem_cons_self _ _)

/-- On a valid connection `recv` returns no bytes only when nothing is left, and leaves a
valid connection. -/
theorem recv_valid (s : Sock) (n : Nat) (hv : s.Valid) (hn : 0 < n) :
    (recv s n).2.Valid ∧ ((recv s n).1.length = 0 → Sock.bytes s = []) := by
  cases s with
  | nil => exact ⟨hv, fun _ => rfl⟩
  | cons seg rest =>
    have hseg : seg ≠ [] := hv.head
    have hpos : 0 < seg.length := List.length_pos.2 hseg
    unfold recv
    simp only []
    split
    · exact ⟨hv.tail, fun h => by
        have h2 : seg.length = 0 := h
        omega⟩
    · rename_i hlt
      refine ⟨fun x hx => ?_, fun h => ?_⟩
      · rcases List.mem_cons.1 hx with h | h
        · rw [h]
          intro hd
          have := congrArg List.length hd
          simp only [List.length_drop, List.length_nil] at this
          omega
        · exact hv.tail x h
      · simp only [List.length_take] at h
        omega

/-- The loop of `recv_all` on a valid connection: it returns `len` with the next bytes of
the stream when enough bytes arrive before the close, and `0` otherwise. -/
theorem recv_all_loop_spec (fuel : Nat) :
    ∀ (s : Sock) (len total : Nat) (buf : List Byte), s.Valid → len - total < fuel →
      total ≤ len →
      (len - total ≤ (Sock.bytes s).length →
        ∃ s1, recv_all_loop fuel s len total buf =
            some ((len : Int), buf ++ (Sock.bytes s).take (len - total), s1) ∧
          Sock.bytes s1 = (Sock.bytes s).drop (len - total) ∧ s1.Valid) ∧
      ((Sock.bytes s).length < len - total →
        ∃ buf1 s1, recv_all_loop fuel s len total buf = some (0, buf1, s1)) := by
  induction fuel with
  | zero => intro s len total buf _ hf; omega
  | succ fuel ih =>
    intro s len total buf hv hf ht
    unfold recv_all_loop
    by_cases hlt : total < len
    · rw [if_pos hlt]
      simp only []
      have hb := recv_bytes s (len - total)
      have hl := recv_length_le s (len - total)
      obtain ⟨hv2, hz⟩ := recv_valid s (len - total) hv (by omega)
      generalize recv s (len - total) = rv at hb hl hv2 hz ⊢
      obtain ⟨x, s2⟩ := rv
      simp only [] at hb hl hv2 hz ⊢
      by_cases h0 : x.length = 0
      · rw [if_pos h0]
        have hnil := hz h0
        constructor
        · intro h; rw [hnil] at h; simp at h; omega
        · intro _; exact ⟨_, _, rfl⟩
      · rw [if_neg h0]
        obtain ⟨ih1, ih2⟩ := ih s2 len (total + x.length) (buf ++ x) hv2 (by omega) (by omega)
        have hlen : (Sock.bytes s).length = x.length + (Sock.bytes s2).length := by
          rw [← hb, List.length_append]
        constructor
        · intro h
          obtain ⟨s1, e1, e2, e3⟩ := ih1 (by omega)
          refine ⟨s1, ?_, ?_, e3⟩
          · rw [e1]
            congr 2
            rw [List.append_assoc, ← hb, List.take_append_eq_append_take,
              List.take_of_length_le hl, Nat.sub_add_eq]
          · rw [e2, ← hb, List.drop_append_eq_append_drop, List.drop_of_length_le hl,
              List.nil_append, Nat.sub_add_eq]
        · intro h
          exact ih2 (by omega)
    · rw [if_neg hlt]
      have : total = len := by omega
      subst this
      constructor
      · intro _
        exact ⟨s, by simp, by simp, hv⟩
      · intro h; omega

theorem recv_all_spec (s : Sock) (len : Nat) (hv : s.Valid) :
    (len ≤ (Sock.bytes s).length →
      ∃ s1, recv_all s len = some ((len : Int), (Sock.bytes s).take len, s1) ∧
        Sock.bytes s1 = (Sock.bytes s).drop len ∧ s1.Valid) ∧
    ((Sock.bytes s).length < len → ∃ buf1 s1, recv_all s len = some (0, buf1, s1)) := by
  have := recv_all_loop_spec (len + 1) s len 0 [] hv (by omega) (Nat.zero_le _)
  simpa [recv_all] using this

/-- Whatever arrives, a positive return value of the loop of `recv_all` is `len`, the
buffer then holds `len` bytes, and these are the bytes taken from the connection. -/
theorem recv_all_loop_consumed (fuel : Nat) :
    ∀ (s : Sock) (len total : Nat) (buf : List Byte) (r : Int) (buf1 : List Byte) (s1 : Sock),
      buf.length = total → total ≤ len →
      recv_all_loop fuel s len total buf = some (r, buf1, s1) → 0 < r →
      r = (len : Int) ∧ buf1.length = len ∧ buf ++ Sock.bytes s = buf1 ++ Sock.bytes s1 := by
  induction fuel with
  | zero => intro s len total buf r buf1 s1 _ _ h; simp [recv_all_loop] at h
  | succ fuel ih =>
    intro s len total buf r buf1 s1 hbuf ht h hr
    unfold recv_all_loop at h
    by_cases hlt : total < len
    · rw [if_pos hlt] at h
      simp only [] at h
      by_cases h0 : (recv s (len - total)).1.length = 0
      · rw [if_pos h0] at h
        simp only [Option.some.injEq, Prod.mk.injEq] at h
        omega
      · rw [if_neg h0] at h
        have hl := recv_length_le s (len - total)
        obtain ⟨e1, e2, e3⟩ := ih _ _ _ _ _ _ _ (by simp [hbuf]) (by omega) h hr
        refine ⟨e1, e2, ?_⟩
        rw [← e3, List.append_assoc, recv_bytes]
    · rw [if_neg hlt] at h
      simp only [Option.some.injEq, Prod.mk.injEq] at h
      obtain ⟨h1, h2, h3⟩ := h
      subst h2 h3
      have : total = len := by omega
      subst this
      exact ⟨h1.symm, hbuf, rfl⟩

theorem recv_all_consumed (s : Sock) (len : Nat) (r : Int) (buf1 : List Byte) (s1 : Sock)
    (h : recv_all s len = some (r, buf1, s1)) (hr : 0 < r) :
    r = (len : Int) ∧ buf1.length = len ∧ Sock.bytes s = buf1 ++ Sock.bytes s1 := by
  have := recv_all_loop_consumed (len + 1) s len 0 [] r buf1 s1 rfl (Nat.zero_le _) h hr
  simpa using this

/-- The loop of `recv_all` always returns within its iteration bound. -/
theorem recv_all_loop_total (fuel : Nat) :
    ∀ (s : Sock) (len total : Nat) (buf : List Byte), len - total < fuel →
      ∃ res, recv_all_loop fuel s len total buf = some res := by
  induction fuel with
  | zero => intro s len total buf hf; omega
  | succ fuel ih =>
    intro s len total buf hf
    unfold recv_all_loop
    by_cases hlt : total < len
    · rw [if_pos hlt]
      simp only []
      by_cases h0 : (recv s (len - total)).1.length = 0
      · rw [if_pos h0]; exact ⟨_, rfl⟩
      · rw [if_neg h0]
        exact ih _ _ _ _ (by omega)
    · rw [if_neg hlt]; exact ⟨_, rfl⟩

theorem recv_all_total (s : Sock) (len : Nat) : ∃ res, recv_all s len = some res :=
  recv_all_loop_total (len + 1) s len 0 [] (by omega)

/-! ## Frames -/

theorem ntohl_htonl (r : Nat) (h : r < 2 ^ 32) : ntohl (htonl r) = r := by
  unfold ntohl htonl
  simp only [List.getD_cons_zero, List.getD_cons_succ, Fin.ofNat, Fin.val_mk]
  omega

theorem htonl_length (r : Nat) : (htonl r).length = 4 := rfl

theorem end_frame_eq : end_frame = [67, 0, 0, 0, 0] := by decide

/-- What `send_loop` writes is a framing of the file. -/
theorem send_loop_spec (fuel : Nat) :
    ∀ (f out : List Byte), f.length < fuel →
      ∃ st, send_loop fuel f out = some (out ++ st) ∧ Framed f st := by
  induction fuel with
  | zero => intro f out h; omega
  | succ fuel ih =>
    intro f out h
    unfold send_loop
    simp only [fread, write_all]
    by_cases h0 : (f.take CHUNK_SIZE).length = 0
    · rw [if_pos h0]
      have hf : f = [] := by
        rw [List.length_take] at h0
        unfold CHUNK_SIZE at h0
        have : f.length = 0 := by omega
        exact List.length_eq_zero.1 this
      subst hf
      exact ⟨end_frame, rfl, Framed.last⟩
    · rw [if_neg h0]
      have hn1 : ¬ (((CONTENT :: htonl (f.take CHUNK_SIZE).length).length : Int) < 0) := by
        omega
      have hn2 : ¬ (((f.take CHUNK_SIZE).length : Int) < 0) := by omega
      rw [if_neg hn1, if_neg hn2]
      have hpos : 0 < (f.take CHUNK_SIZE).length := Nat.pos_of_ne_zero h0
      have hdrop : (f.drop CHUNK_SIZE).length < fuel := by
        rw [List.length_take] at hpos
        rw [List.length_drop]
        unfold CHUNK_SIZE at hpos ⊢
        omega
      obtain ⟨st, e1, e2⟩ := ih (f.drop CHUNK_SIZE)
        (out ++ (CONTENT :: htonl (f.take CHUNK_SIZE).length) ++ f.take CHUNK_SIZE) hdrop
      refine ⟨(CONTENT :: htonl (f.take CHUNK_SIZE).length) ++ f.take CHUNK_SIZE ++ st, ?_, ?_⟩
      · rw [e1]; simp only [List.append_assoc]
      · have := Framed.data (f.take CHUNK_SIZE) (f.drop CHUNK_SIZE) st
          (List.length_pos.1 hpos) (by rw [List.length_take]; exact Nat.min_le_left _ _) e2
        rw [List.take_append_drop] at this
        exact this

/-- The framing of the empty file is the terminating frame alone. -/
theorem framed_nil (st : List Byte) (h : Framed [] st) : st = end_frame := by
  generalize hF : ([] : List Byte) = F at h
  cases h with
  | last => rfl
  | data chunk rest st2 hne _ _ =>
    exfalso
    have := congrArg List.length hF
    simp only [List.length_nil, List.length_append] at this
    have : 0 < chunk.length := List.length_pos.2 hne
    omega

theorem valid_bytes_nil (s : Sock) (hv : s.Valid) (h : Sock.bytes s = []) : s = [] := by
  cases s with
  | nil => rfl
  | cons seg rest =>
    exfalso
    simp only [Sock.bytes, List.append_eq_nil] at h
    exact hv.head h.1

/-! ## The loops of `download_from_server` -/

/-- The inner loop on a valid connection: it stores the next `remaining` bytes when they
arrive before the close, and makes the function fail otherwise. -/
theorem download_chunk_loop_spec (fuel : Nat) :
    ∀ (s : Sock) (remaining : Nat) (file : List Byte), s.Valid → remaining < fuel →
      (remaining ≤ (Sock.bytes s).length →
        ∃ s2, download_chunk_loop fuel s remaining file =
            some (true, file ++ (Sock.bytes s).take remaining, s2) ∧
          Sock.bytes s2 = (Sock.bytes s).drop remaining ∧ s2.Valid) ∧
      ((Sock.bytes s).length < remaining →
        ∃ file1 s2, download_chunk_loop fuel s remaining file = some (false, file1, s2)) := by
  induction fuel with
  | zero => intro s remaining file _ h; omega
  | succ fuel ih =>
    intro s remaining file hv hf
    unfold download_chunk_loop
    by_cases hpos : remaining > 0
    · rw [if_pos hpos]
      simp only []
      generalize ht : (if remaining > CHUNK_SIZE then CHUNK_SIZE else remaining) = toread
      have ht1 : 0 < toread ∧ toread ≤ remaining := by
        rw [← ht]; unfold CHUNK_SIZE; split <;> omega
      obtain ⟨r1, r2⟩ := recv_all_spec s toread hv
      by_cases hav : toread ≤ (Sock.bytes s).length
      · obtain ⟨s1, e1, e2, e3⟩ := r1 hav
        rw [e1]
        simp only []
        have hgot : ¬ ((toread : Int) ≤ 0) := by omega
        rw [if_neg hgot]
        simp only [Int.toNat_ofNat]
        obtain ⟨ih1, ih2⟩ := ih s1 (remaining - toread)
          (file ++ ((Sock.bytes s).take toread).take toread) e3 (by omega)
        have hl1 : (Sock.bytes s1).length = (Sock.bytes s).length - toread := by
          rw [e2, List.length_drop]
        constructor
        · intro h
          obtain ⟨s2, f1, f2, f3⟩ := ih1 (by omega)
          refine ⟨s2, ?_, ?_, f3⟩
          · rw [f1, e2, List.take_take, Nat.min_self, List.append_assoc]
            congr 3
            have hsplit : remaining = toread + (remaining - toread) := by omega
            conv_rhs => rw [hsplit, List.take_add]
          · rw [f2, e2, List.drop_drop]
            congr 1
            omega
        · intro h
          exact ih2 (by omega)
      · obtain ⟨buf1, s1, e1⟩ := r2 (by omega)
        rw [e1]
        simp only []
        rw [if_pos (le_refl _)]
        constructor
        · intro h; omega
        · intro _; exact ⟨_, _, rfl⟩
    · rw [if_neg hpos]
      have : remaining = 0 := by omega
      subst this
      constructor
      · intro _; exact ⟨s, by simp, by simp, hv⟩
      · intro h; omega

theorem frame_hdr_length (n : Nat) : (CONTENT :: htonl n).length = 5 := rfl

theorem append_split {α : Type} (P Q A R : List α) (h : P ++ Q = A ++ R)
    (hl : A.length ≤ P.length) : ∃ P1, P = A ++ P1 ∧ P1 ++ Q = R := by
  rcases List.append_eq_append_iff.1 h with ⟨a, h1, h2⟩ | ⟨c, h1, h2⟩
  · have hlen := congrArg List.length h1
    simp only [List.length_append] at hlen
    have ha : a = [] := List.length_eq_zero.1 (by omega)
    subst ha
    refine ⟨[], by simpa using h1.symm, by simpa using h2⟩
  · exact ⟨c, h1, h2.symm⟩

/-- Reading a header when fewer than five bytes arrive before the close fails. -/
theorem download_loop_short_header (k : Nat) (s : Sock) (file : List Byte) (hv : s.Valid)
    (h : (Sock.bytes s).length < 5) :
    ∃ file1 s1, download_loop (k + 1) s file = some (-1, file1, s1) := by
  obtain ⟨buf1, s1, e1⟩ := (recv_all_spec s 5 hv).2 h
  unfold download_loop
  rw [e1]
  simp only []
  rw [if_pos (le_refl _)]
  exact ⟨_, _, rfl⟩

/-- Reading one complete header `CONTENT, htonl n` from a valid connection. -/
theorem recv_all_header (s : Sock) (n : Nat) (rest : List Byte) (hv : s.Valid)
    (hb : Sock.bytes s = (CONTENT :: htonl n) ++ rest) :
    ∃ s1, recv_all s 5 = some (5, CONTENT :: htonl n, s1) ∧ Sock.bytes s1 = rest ∧ s1.Valid := by
  obtain ⟨s1, e1, e2, e3⟩ := (recv_all_spec s 5 hv).1 (by
    rw [hb, List.length_append, frame_hdr_length]; omega)
  refine ⟨s1, ?_, ?_, e3⟩
  · rw [e1, hb]
    have : ((CONTENT :: htonl n) ++ rest).take 5 = CONTENT :: htonl n := by
      rw [List.take_append_eq_append_take, frame_hdr_length]
      simp [htonl]
    rw [this]
    rfl
  · rw [e2, hb]
    have : ((CONTENT :: htonl n) ++ rest).drop 5 = rest := by
      rw [List.drop_append_eq_append_drop, frame_hdr_length]
      simp [htonl]
    exact this

/-- The frame loop on a complete framing of `F`: it returns 0 with `F` appended to the local
file, and has then read the whole stream. -/
theorem download_loop_framed (F st : List Byte) (h : Framed F st) :
    ∀ (s : Sock) (file : List Byte) (k : Nat), s.Valid → Sock.bytes s = st → st.length < k →
      download_loop k s file = some (0, file ++ F, []) := by
  induction h with
  | last =>
    intro s file k hv hb hk
    obtain ⟨k, rfl⟩ : ∃ m, k = m + 1 := ⟨k - 1, by omega⟩
    obtain ⟨s1, e1, e2, e3⟩ := recv_all_header s 0 [] hv (by rw [hb]; simp [end_frame])
    have hs1 : s1 = [] := valid_bytes_nil s1 e3 e2
    unfold download_loop
    rw [e1, hs1]
    simp only []
    have h1 : ¬ ((5 : Int) ≤ 0) := by omega
    have h2 : ¬ ((CONTENT :: htonl 0).getD 0 0 ≠ CONTENT) := by decide
    have h3 : ntohl ((CONTENT :: htonl 0).drop 1) = 0 := by decide
    rw [if_neg h1, if_neg h2, if_pos h3, List.append_nil]
  | data chunk rest st hne hle _ ih =>
    intro s file k hv hb hk
    obtain ⟨k, rfl⟩ : ∃ m, k = m + 1 := ⟨k - 1, by omega⟩
    have hpos : 0 < chunk.length := List.length_pos.2 hne
    obtain ⟨s1, e1, e2, e3⟩ := recv_all_header s chunk.length (chunk ++ st) hv
      (by rw [hb, List.append_assoc])
    unfold download_loop
    rw [e1]
    simp only []
    have h1 : ¬ ((5 : Int) ≤ 0) := by omega
    have h2 : ¬ ((CONTENT :: htonl chunk.length).getD 0 0 ≠ CONTENT) := by
      simp
    have h3 : ntohl ((CONTENT :: htonl chunk.length).drop 1) = chunk.length := by
      show ntohl (htonl chunk.length) = chunk.length
      exact ntohl_htonl _ (by unfold CHUNK_SIZE at hle; omega)
    rw [if_neg h1, if_neg h2, h3, if_neg (by omega)]
    obtain ⟨s2, f1, f2, f3⟩ := (download_chunk_loop_spec (chunk.length + 1) s1 chunk.length file
      e3 (by omega)).1 (by rw [e2, List.length_append]; omega)
    rw [f1]
    simp only [if_true]
    have htake : (Sock.bytes s1).take chunk.length = chunk := by
      rw [e2, List.take_left']; rfl
    have hdrop : Sock.bytes s2 = st := by
      rw [f2, e2, List.drop_left']; rfl
    rw [htake, ih s2 (file ++ chunk) k f3 hdrop (by
      simp only [List.length_append, frame_hdr_length] at hk; omega), List.append_assoc]

/-- The frame loop on a stream cut short: if only a proper initial part `P` of a framing
arrives before the close, the function returns -1. -/
theorem download_loop_truncated (F st : List Byte) (h : Framed F st) :
    ∀ (P Q : List Byte), st = P ++ Q → Q ≠ [] →
      ∀ (s : Sock) (file : List Byte) (k : Nat), s.Valid → Sock.bytes s = P → P.length < k →
        ∃ file1 s1, download_loop k s file = some (-1, file1, s1) := by
  induction h with
  | last =>
    intro P Q hst hQ s file k hv hb hk
    obtain ⟨k, rfl⟩ : ∃ m, k = m + 1 := ⟨k - 1, by omega⟩
    apply download_loop_short_header k s file hv
    have hlen := congrArg List.length hst
    rw [end_frame_eq] at hlen
    simp only [List.length_append, List.length_cons, List.length_nil] at hlen
    have : 0 < Q.length := List.length_pos.2 hQ
    rw [hb]; omega
  | data chunk rest st hne hle _ ih =>
    intro P Q hst hQ s file k hv hb hk
    obtain ⟨k, rfl⟩ : ∃ m, k = m + 1 := ⟨k - 1, by omega⟩
    have hpos : 0 < chunk.length := List.length_pos.2 hne
    by_cases h5 : P.length < 5
    · apply download_loop_short_header k s file hv
      rw [hb]; exact h5
    · rw [List.append_assoc] at hst
      obtain ⟨P1, hP, hP1⟩ := append_split P Q (CONTENT :: htonl chunk.length) (chunk ++ st)
        hst.symm (by rw [frame_hdr_length]; omega)
      obtain ⟨s1, e1, e2, e3⟩ := recv_all_header s chunk.length P1 hv (by rw [hb, hP])
      have h1 : ¬ ((5 : Int) ≤ 0) := by omega
      have h2 : ¬ ((CONTENT :: htonl chunk.length).getD 0 0 ≠ CONTENT) := by
        simp
      have h3 : ntohl ((CONTENT :: htonl chunk.length).drop 1) = chunk.length := by
        show ntohl (htonl chunk.length) = chunk.length
        exact ntohl_htonl _ (by unfold CHUNK_SIZE at hle; omega)
      unfold download_loop
      rw [e1]
      simp only []
      rw [if_neg h1, if_neg h2, h3, if_neg (by omega)]
      by_cases hc : P1.length < chunk.length
      · obtain ⟨file1, s2, f1⟩ := (download_chunk_loop_spec (chunk.length + 1) s1 chunk.length
          file e3 (by omega)).2 (by rw [e2]; exact hc)
        rw [f1]
        exact ⟨_, _, rfl⟩
      · obtain ⟨P2, hP2, hP3⟩ := append_split P1 Q chunk st hP1 (by omega)
        obtain ⟨s2, f1, f2, f3⟩ := (download_chunk_loop_spec (chunk.length + 1) s1 chunk.length
          file e3 (by omega)).1 (by rw [e2]; omega)
        rw [f1]
        simp only [if_true]
        have hdrop : Sock.bytes s2 = P2 := by
          rw [f2, e2, hP2, List.drop_left']; rfl
        apply ih P2 Q hP3.symm hQ s2 _ k f3 hdrop
        have hlen := congrArg List.length hP
        rw [hP2] at hlen
        simp only [List.length_append, frame_hdr_length] at hlen
        omega

/-- When the inner loop completes, what it took from the connection is an initial part of
what was to arrive (any connection). -/
theorem download_chunk_loop_consumed (fuel : Nat) :
    ∀ (s : Sock) (remaining : Nat) (file file1 : List Byte) (s2 : Sock),
      download_chunk_loop fuel s remaining file = some (true, file1, s2) →
      ∃ c, Sock.bytes s = c ++ Sock.bytes s2 := by
  induction fuel with
  | zero => intro s remaining file file1 s2 h; simp [download_chunk_loop] at h
  | succ fuel ih =>
    intro s remaining file file1 s2 h
    unfold download_chunk_loop at h
    by_cases hpos : remaining > 0
    · rw [if_pos hpos] at h
      simp only [] at h
      generalize (if remaining > CHUNK_SIZE then CHUNK_SIZE else remaining) = toread at h
      cases hra : recv_all s toread with
      | none => rw [hra] at h; simp at h
      | some res =>
        obtain ⟨got, buf, s1⟩ := res
        rw [hra] at h
        simp only [] at h
        by_cases hg : got ≤ 0
        · rw [if_pos hg] at h; simp at h
        · rw [if_neg hg] at h
          obtain ⟨c, hc⟩ := ih _ _ _ _ _ h
          obtain ⟨_, _, e3⟩ := recv_all_consumed s toread got buf s1 hra (by omega)
          exact ⟨buf ++ c, by rw [e3, hc, List.append_assoc]⟩
    · rw [if_neg hpos] at h
      simp only [Option.some.injEq, Prod.mk.injEq] at h
      exact ⟨[], by rw [h.2.2]; rfl⟩

/-- A five-byte header with type `CONTENT` and length zero is the terminating frame. -/
theorem header_eq_end_frame (hdr : List Byte) (hl : hdr.length = 5)
    (h0 : hdr.getD 0 0 = CONTENT) (hz : ntohl (hdr.drop 1) = 0) : hdr = end_frame := by
  match hdr, hl with
  | [a, b, c, d, e], _ =>
    simp only [List.getD_cons_zero] at h0
    unfold ntohl at hz
    simp only [List.drop_succ_cons, List.drop_zero, List.getD_cons_zero,
      List.getD_cons_succ] at hz
    have hb : b = 0 := Fin.ext (by simp only [Fin.val_zero]; omega)
    have hc : c = 0 := Fin.ext (by simp only [Fin.val_zero]; omega)
    have hd : d = 0 := Fin.ext (by simp only [Fin.val_zero]; omega)
    have he : e = 0 := Fin.ext (by simp only [Fin.val_zero]; omega)
    rw [h0, hb, hc, hd, he]
    rfl

/-- Whatever arrives on the connection, the frame loop returns 0 only directly after it has
read a complete terminating frame. -/
theorem download_loop_success (k : Nat) :
    ∀ (s : Sock) (file file1 : List Byte) (s1 : Sock),
      download_loop k s file = some (0, file1, s1) →
      ∃ pre, Sock.bytes s = pre ++ end_frame ++ Sock.bytes s1 := by
  induction k with
  | zero => intro s file file1 s1 h; simp [download_loop] at h
  | succ k ih =>
    intro s file file1 s1 h
    unfold download_loop at h
    cases hra : recv_all s 5 with
    | none => rw [hra] at h; simp at h
    | some res =>
      obtain ⟨r, hdr, sa⟩ := res
      rw [hra] at h
      simp only [] at h
      by_cases hr : r ≤ 0
      · rw [if_pos hr] at h; simp at h
      · rw [if_neg hr] at h
        obtain ⟨_, hl, hb⟩ := recv_all_consumed s 5 r hdr sa hra (by omega)
        by_cases hc : hdr.getD 0 0 ≠ CONTENT
        · rw [if_pos hc] at h; simp at h
        · rw [if_neg hc] at h
          by_cases hz : ntohl (hdr.drop 1) = 0
          · rw [if_pos hz] at h
            simp only [Option.some.injEq, Prod.mk.injEq, true_and] at h
            refine ⟨[], ?_⟩
            rw [hb, ← h.2, header_eq_end_frame hdr hl (not_not.1 hc) hz]
            rfl
          · rw [if_neg hz] at h
            cases hin : download_chunk_loop (ntohl (hdr.drop 1) + 1) sa (ntohl (hdr.drop 1)) file with
            | none => rw [hin] at h; simp at h
            | some res2 =>
              obtain ⟨ok, f1, s2⟩ := res2
              rw [hin] at h
              simp only [] at h
              cases ok with
              | false => simp at h
              | true =>
                simp only [if_true] at h
                obtain ⟨pre, hpre⟩ := ih _ _ _ _ h
                obtain ⟨c, hc2⟩ := download_chunk_loop_consumed _ _ _ _ _ _ hin
                exact ⟨hdr ++ c ++ pre, by rw [hb, hc2, hpre]; simp only [List.append_assoc]⟩

/-- The stream written for an existing file is a framing of its contents. -/
theorem handle_client_connection_framed (dp : register_pdu)
    (fopen : List Byte → Option (List Byte)) (F : List Byte) (hdp : dp.type = DOWNLOAD)
    (hfile : fopen (cstr (download_fname dp)) = some F) :
    ∃ st, handle_client_connection dp fopen = some st ∧ Framed F st := by
  obtain ⟨st, e1, e2⟩ := send_loop_spec (F.length + 1) F [] (Nat.lt_succ_self _)
  refine ⟨st, ?_, e2⟩
  unfold handle_client_connection
  rw [if_neg (not_not.2 hdp), hfile]
  simpa using e1

/-- C4. Round trip of Content Transport: for every byte sequence `F`, the stream that
`handle_client_connection` writes for a Download request naming a file with contents `F` is a
sequence of frames (type byte `C`, 4-byte big-endian length, at most 1024 payload bytes)
ended by a zero-length frame; when that stream arrives on the connection, in whatever
segments, `download_from_server` returns 0 having written exactly the bytes of `F`, in order,
to the local file; and when `F` is empty the stream is exactly the terminating frame
`C,0,0,0,0` and the downloaded file is empty. -/
theorem content_transport_round_trip (F : List Byte) (dp : register_pdu)
    (fopen : List Byte → Option (List Byte)) (hdp : dp.type = DOWNLOAD)
    (hfile : fopen (cstr (download_fname dp)) = some F) :
    ∃ st, handle_client_connection dp fopen = some st ∧ Framed F st ∧
      (∀ s : Sock, s.Valid → Sock.bytes s = st → download_from_server s = some (0, F, [])) ∧
      (F = [] → st = [67, 0, 0, 0, 0] ∧
        ∀ s : Sock, s.Valid → Sock.bytes s = st → download_from_server s = some (0, [], [])) := by
  obtain ⟨st, e1, e2⟩ := handle_client_connection_framed dp fopen F hdp hfile
  have hdl : ∀ s : Sock, s.Valid → Sock.bytes s = st →
      download_from_server s = some (0, F, []) := by
    intro s hv hb
    unfold download_from_server
    have := download_loop_framed F st e2 s [] ((Sock.bytes s).length + 1) hv hb
      (by rw [hb]; exact Nat.lt_succ_self _)
    simpa using this
  refine ⟨st, e1, e2, hdl, fun hF => ?_⟩
  subst hF
  exact ⟨by rw [framed_nil st e2, end_frame_eq], hdl⟩

/-- The round trip for a three-byte file arriving in three segments. -/
theorem content_transport_round_trip_witness :
    (mkDownload "f").type = DOWNLOAD ∧
    oneFile "f" [10, 20, 30] (cstr (download_fname (mkDownload "f"))) = some [10, 20, 30] ∧
    handle_client_connection (mkDownload "f") (oneFile "f" [10, 20, 30]) =
      some [67, 0, 0, 0, 3, 10, 20, 30, 67, 0, 0, 0, 0] ∧
    download_from_server [[67, 0, 0], [0, 3, 10, 20], [30, 67, 0, 0, 0, 0]] =
      some (0, [10, 20, 30], []) := by
  have hc : handle_client_connection (mkDownload "f") (oneFile "f" [10, 20, 30]) =
      some [67, 0, 0, 0, 3, 10, 20, 30, 67, 0, 0, 0, 0] := by decide
  refine ⟨rfl, by decide, hc, ?_⟩
  obtain ⟨st, e1, _, e3, _⟩ := content_transport_round_trip [10, 20, 30] (mkDownload "f")
    (oneFile "f" [10, 20, 30]) rfl (by decide)
  rw [hc] at e1
  have hst : st = [67, 0, 0, 0, 3, 10, 20, 30, 67, 0, 0, 0, 0] := (Option.some.inj e1).symm
  exact e3 _ (by decide) (by rw [hst]; decide)

/-- C10. A truncated stream is a failed download: for every byte sequence `F`, if only a
proper initial part `P` of the stream that the serving peer writes for `F` arrives (in
whatever segments, `P` possibly empty) before the connection closes, then
`download_from_server` returns -1, and so never 0; and whatever arrives on a connection,
0 is returned only directly after a complete zero-length terminating frame has been read. -/
theorem truncated_download_fails (F : List Byte) (dp : register_pdu)
    (fopen : List Byte → Option (List Byte)) (hdp : dp.type = DOWNLOAD)
    (hfile : fopen (cstr (download_fname dp)) = some F)
    (P Q : List Byte) (hQ : Q ≠ []) (hPQ : handle_client_connection dp fopen = some (P ++ Q))
    (s : Sock) (hv : s.Valid) (hb : Sock.bytes s = P) :
    (∃ file1 s1, download_from_server s = some (-1, file1, s1)) ∧
    (∀ file1 s1, download_from_server s ≠ some (0, file1, s1)) ∧
    (∀ (t : Sock) (file1 : List Byte) (s1 : Sock),
      download_from_server t = some (0, file1, s1) →
      ∃ pre, Sock.bytes t = pre ++ [67, 0, 0, 0, 0] ++ Sock.bytes s1) := by
  obtain ⟨st, e1, e2⟩ := handle_client_connection_framed dp fopen F hdp hfile
  rw [hPQ] at e1
  have hst : st = P ++ Q := (Option.some.inj e1).symm
  obtain ⟨file1, s1, hfail⟩ := download_loop_truncated F st e2 P Q hst hQ s []
    ((Sock.bytes s).length + 1) hv hb (by rw [hb]; exact Nat.lt_succ_self _)
  have hfail2 : download_from_server s = some (-1, file1, s1) := hfail
  refine ⟨⟨file1, s1, hfail2⟩, fun f2 s2 h => ?_, fun t f2 s2 h => ?_⟩
  · rw [hfail2] at h
    simp only [Option.some.injEq, Prod.mk.injEq] at h
    omega
  · rw [← end_frame_eq]
    exact download_loop_success _ t [] f2 s2 h

/-- A three-byte file whose stream is cut after seven bytes: the download fails. -/
theorem truncated_download_fails_witness :
    (mkDownload "f").type = DOWNLOAD ∧
    oneFile "f" [10, 20, 30] (cstr (download_fname (mkDownload "f"))) = some [10, 20, 30] ∧
    handle_client_connection (mkDownload "f") (oneFile "f" [10, 20, 30]) =
      some ([67, 0, 0, 0, 3, 10, 20] ++ [30, 67, 0, 0, 0, 0]) ∧
    Sock.Valid [[67, 0], [0, 0, 3, 10, 20]] ∧
    (∃ file1 s1, download_from_server [[67, 0], [0, 0, 3, 10, 20]] = some (-1, file1, s1)) :=
  ⟨rfl, by decide, by decide, by decide,
   (truncated_download_fails [10, 20, 30] (mkDownload "f") (oneFile "f" [10, 20, 30]) rfl
      (by decide) [67, 0, 0, 0, 3, 10, 20] [30, 67, 0, 0, 0, 0] (by decide) (by decide)
      [[67, 0], [0, 0, 3, 10, 20]] (by decide) (by decide)).1⟩

/-- The functions `recv_all`, `handle_client_connection` and `download_from_server` always
return: their iteration bounds are never exhausted. -/
theorem handle_client_connection_total (dp : register_pdu)
    (fopen : List Byte → Option (List Byte)) :
    ∃ st, handle_client_connection dp fopen = some st := by
  unfold handle_client_connection
  split
  · exact ⟨_, rfl⟩
  · split
    · exact ⟨_, rfl⟩
    · rename_i file _
      obtain ⟨st, e1, _⟩ := send_loop_spec (file.length + 1) file [] (Nat.lt_succ_self _)
      exact ⟨_, e1⟩

theorem download_chunk_loop_total (fuel : Nat) :
    ∀ (s : Sock) (remaining : Nat) (file : List Byte), remaining < fuel →
      ∃ res, download_chunk_loop fuel s remaining file = some res := by
  induction fuel with
  | zero => intro s remaining file h; omega
  | succ fuel ih =>
    intro s remaining file hf
    unfold download_chunk_loop
    by_cases hpos : remaining > 0
    · rw [if_pos hpos]
      simp only []
      generalize ht : (if remaining > CHUNK_SIZE then CHUNK_SIZE else remaining) = toread
      have ht1 : 0 < toread := by
        rw [← ht]; unfold CHUNK_SIZE; split <;> omega
      obtain ⟨res, hra⟩ := recv_all_total s toread
      obtain ⟨got, buf, s1⟩ := res
      rw [hra]
      simp only []
      by_cases hg : got ≤ 0
      · rw [if_pos hg]; exact ⟨_, rfl⟩
      · rw [if_neg hg]
        obtain ⟨e1, _, _⟩ := recv_all_consumed s toread got buf s1 hra (by omega)
        apply ih
        rw [e1, Int.toNat_ofNat]
        omega
    · rw [if_neg hpos]; exact ⟨_, rfl⟩

theorem download_loop_total (k : Nat) :
    ∀ (s : Sock) (file : List Byte), (Sock.bytes s).length < k →
      ∃ res, download_loop k s file = some res := by
  induction k with
  | zero => intro s file h; omega
  | succ k ih =>
    intro s file hk
    unfold download_loop
    obtain ⟨res, hra⟩ := recv_all_total s 5
    obtain ⟨r, hdr, sa⟩ := res
    rw [hra]
    simp only []
    by_cases hr : r ≤ 0
    · rw [if_pos hr]; exact ⟨_, rfl⟩
    · rw [if_neg hr]
      obtain ⟨_, hl, hb⟩ := recv_all_consumed s 5 r hdr sa hra (by omega)
      by_cases hc : hdr.getD 0 0 ≠ CONTENT
      · rw [if_pos hc]; exact ⟨_, rfl⟩
      · rw [if_neg hc]
        by_cases hz : ntohl (hdr.drop 1) = 0
        · rw [if_pos hz]; exact ⟨_, rfl⟩
        · rw [if_neg hz]
          obtain ⟨res2, hin⟩ := download_chunk_loop_total (ntohl (hdr.drop 1) + 1) sa
            (ntohl (hdr.drop 1)) file (Nat.lt_succ_self _)
          obtain ⟨ok, f1, s2⟩ := res2
          rw [hin]
          simp only []
          cases ok with
          | false => exact ⟨_, rfl⟩
          | true =>
            simp only [if_true]
            obtain ⟨c, hc2⟩ := download_chunk_loop_consumed _ _ _ _ _ _ hin
            apply ih
            have h1 := congrArg List.length hb
            have h2 := congrArg List.length hc2
            simp only [List.length_append] at h1 h2
            omega

/-- The function `download_from_server` returns on every connection. -/
theorem download_from_server_total (s : Sock) : ∃ res, download_from_server s = some res :=
  download_loop_total _ s [] (Nat.lt_succ_self _)

/-! ## Uniqueness for NUL-terminated names -/

/-- The stored copy of a NUL-terminated wire name compares equal to that wire name. -/
theorem strncmp_stored (dst src : List Byte) (hd : NameOK dst) (hs : Terminated src) :
    strncmp (strncpy dst src (NAME_LEN - 1)) src NAME_LEN = 0 := by
  rw [strncmp_eq_zero_iff]
  have hok := strncpy_nameOK dst src hd
  have hlen := hok.length_eq
  rw [List.take_of_length_le (by omega)]
  have hc : cstr (strncpy dst src (NAME_LEN - 1)) = cstr (src.take (NAME_LEN - 1)) := by
    unfold strncpy
    simp only []
    rw [List.append_assoc, cstr_append _ _ (cstr_ne_zero _)]
    have : cstr (zeros (NAME_LEN - 1 - (cstr (src.take (NAME_LEN - 1))).length) ++
        dst.drop (NAME_LEN - 1)) = [] := by
      rw [hd.drop_nine]
      have : ([0] : List Byte) = zeros 1 := rfl
      rw [this, ← zeros_add]
      exact cstr_zeros_only _
    rw [this, List.append_nil]
  unfold Terminated strlen at hs
  rw [hc, cstr_take, cstr_take, List.take_of_length_le (by unfold NAME_LEN at hs ⊢; omega),
    List.take_of_length_le (by omega)]

/-- `handle_register` keeps the stored pairs of active entries distinct when the request's
names are NUL-terminated. -/
theorem handle_register_unique (c : Catalog) (rpdu : register_pdu) (hwf : c.WF)
    (hu : c.UniqueActive) (hp : Terminated rpdu.peerName) (hn : Terminated rpdu.contentName) :
    (handle_register c rpdu).1.UniqueActive := by
  by_cases hm : ∃ i, i < c.entry_count ∧ c.matchesExact rpdu.peerName rpdu.contentName i
  · rw [handle_register_of_match c rpdu hm]; exact hu
  · have hno : ∀ i, i < c.entry_count → ¬ c.matchesExact rpdu.peerName rpdu.contentName i :=
      fun i hi h => hm ⟨i, hi, h⟩
    by_cases hfull : MAX_ENTRIES ≤ c.entry_count
    · rw [handle_register_of_full c rpdu hno hfull]; exact hu
    · have hroom : c.entry_count < MAX_ENTRIES := Nat.lt_of_not_le hfull
      rw [handle_register_of_room c rpdu hno hroom]
      obtain ⟨hdp, hdn, _, _⟩ := entry_OK c hwf c.entry_count
      have hlt : c.entry_count < c.table.length := by rw [hwf.1]; exact hroom
      -- the entries of the new state
      have hnew : ∀ i, (Catalog.entry
          { table := c.table.set c.entry_count
              { peerName := strncpy (c.entry c.entry_count).peerName rpdu.peerName (NAME_LEN - 1),
                contentName :=
                  strncpy (c.entry c.entry_count).contentName rpdu.contentName (NAME_LEN - 1),
                addr := rpdu.addr, used_count := 0, active := 1 },
            entry_count := c.entry_count + 1 } i) =
          if c.entry_count = i then
            { peerName := strncpy (c.entry c.entry_count).peerName rpdu.peerName (NAME_LEN - 1),
              contentName :=
                strncpy (c.entry c.entry_count).contentName rpdu.contentName (NAME_LEN - 1),
              addr := rpdu.addr, used_count := 0, active := 1 }
          else c.entry i := by
        intro i
        unfold Catalog.entry
        simp only []
        rw [getD_set_eq]
        by_cases h : c.entry_count = i
        · rw [if_pos ⟨h, hlt⟩, if_pos h]
        · rw [if_neg (fun hh => h hh.1), if_neg h]
      -- an old active entry never holds the stored pair of the new one
      have hclash : ∀ i, i < c.entry_count → (c.entry i).active ≠ 0 →
          (c.entry i).peerName =
            strncpy (c.entry c.entry_count).peerName rpdu.peerName (NAME_LEN - 1) →
          (c.entry i).contentName =
            strncpy (c.entry c.entry_count).contentName rpdu.contentName (NAME_LEN - 1) →
          False := by
        intro i hi ha e1 e2
        apply hno i hi
        refine ⟨ha, ?_, ?_⟩
        · rw [e1]; exact strncmp_stored _ _ hdp hp
        · rw [e2]; exact strncmp_stored _ _ hdn hn
      intro i hi j hj hij hs
      unfold Catalog.sameActivePair at hs
      rw [hnew i, hnew j] at hs
      simp only [] at hi hj
      by_cases h1 : c.entry_count = i
      · have h2 : ¬ c.entry_count = j := fun h => hij (h1.symm.trans h)
        rw [if_pos h1, if_neg h2] at hs
        exact hclash j (by omega) hs.2.1 hs.2.2.1.symm hs.2.2.2.symm
      · rw [if_neg h1] at hs
        by_cases h2 : c.entry_count = j
        · rw [if_pos h2] at hs
          exact hclash i (by omega) hs.1 hs.2.2.1 hs.2.2.2
        · rw [if_neg h2] at hs
          exact hu i (by omega) j (by omega) hij hs

/-- Uniqueness for conforming requests: starting from the empty catalog, after every
sequence of Register requests whose name fields are NUL-terminated (at most nine
characters, as every peer of this repository sends them), no two distinct active entries
hold the same stored (peerName, contentName) pair. -/
theorem registerAll_unique (rs : List register_pdu)
    (h : ∀ r ∈ rs, Terminated r.peerName ∧ Terminated r.contentName) :
    (registerAll Catalog.empty rs).UniqueActive := by
  have gen : ∀ (rs : List register_pdu) (c : Catalog), c.WF → c.UniqueActive →
      (∀ r ∈ rs, Terminated r.peerName ∧ Terminated r.contentName) →
      (registerAll c rs).UniqueActive := by
    intro rs
    induction rs with
    | nil => intro c _ hu _; exact hu
    | cons r rs ih =>
      intro c hwf hu hr
      have h1 := hr r (List.mem_cons_self _ _)
      exact ih _ (handle_register_WF c r hwf) (handle_register_unique c r hwf hu h1.1 h1.2)
        (fun x hx => hr x (List.mem_cons_of_mem _ hx))
  exact gen rs Catalog.empty Catalog.WF_empty
    (fun i hi => absurd hi (Nat.not_lt_zero i)) h

theorem registerAll_unique_witness : catalogXYZ.UniqueActive :=
  registerAll_unique _ (by decide)

/-! ## Deregistration and capacity -/

/-- The Deregister handler when `find_exact` finds entry `k`. -/
theorem handle_deregister_of_found (c : Catalog) (rpdu : register_pdu) (k : Nat)
    (hk : find_exact c rpdu.peerName rpdu.contentName = (k : Int)) :
    handle_deregister c rpdu =
      ({ table := c.table.set k { c.entry k with active := 0 }, entry_count := c.entry_count },
       .simple (send_simple ACKNOWLEDGEMENT (lit "Deregistered"))) := by
  unfold handle_deregister
  simp only [hk]
  have hne : ¬ ((k : Int) = -1) := by omega
  rw [if_neg hne]
  simp

/-- The Deregister handler when `find_exact` finds nothing. -/
theorem handle_deregister_of_none (c : Catalog) (rpdu : register_pdu)
    (h : find_exact c rpdu.peerName rpdu.contentName = -1) :
    handle_deregister c rpdu = (c, .simple (send_simple ERROR (lit "No such registration"))) := by
  unfold handle_deregister
  simp [h]

/-- A Deregister request answered Acknowledge has cleared the flag of an active entry below
`entry_count`. -/
theorem handle_deregister_of_ack (c : Catalog) (rpdu : register_pdu)
    (hack : (handle_deregister c rpdu).2 =
      .simple (send_simple ACKNOWLEDGEMENT (lit "Deregistered"))) :
    ∃ k, k < c.entry_count ∧ k < c.table.length ∧ (c.entry k).active ≠ 0 ∧
      handle_deregister c rpdu =
        ({ table := c.table.set k { c.entry k with active := 0 },
           entry_count := c.entry_count },
         .simple (send_simple ACKNOWLEDGEMENT (lit "Deregistered"))) := by
  rcases find_exact_cases c rpdu.peerName rpdu.contentName with he | ⟨k, hk⟩
  · exfalso
    rw [handle_deregister_of_none c rpdu he] at hack
    have hne : send_simple ERROR (lit "No such registration") ≠
        send_simple ACKNOWLEDGEMENT (lit "Deregistered") := by decide
    exact hne (Datagram.simple.inj hack)
  · obtain ⟨h1, h2, _⟩ := (find_exact_eq_index _ _ _ _).1 hk
    exact ⟨k, h1, lt_length_of_active c k h2.1, h2.1, handle_deregister_of_found c rpdu k hk⟩

/-- The entries of a table after the flag of slot `k` has been cleared. -/
theorem entry_deactivate (c : Catalog) (k i : Nat) (hk : k < c.table.length) :
    Catalog.entry { table := c.table.set k { c.entry k with active := 0 },
                    entry_count := c.entry_count } i =
      if i = k then { c.entry k with active := 0 } else c.entry i := by
  unfold Catalog.entry
  simp only []
  rw [getD_set_eq]
  by_cases h : k = i
  · subst h
    rw [if_pos ⟨rfl, hk⟩, if_pos rfl]
  · rw [if_neg (fun hh => h hh.1), if_neg (fun hh => h hh.symm)]

theorem filter_length_remove (l : List Nat) (p q : Nat → Bool) (k : Nat) (hl : l.Nodup)
    (hk : k ∈ l) (hq : q k = false) (hp : p k = true) (hpq : ∀ i, i ≠ k → q i = p i) :
    (l.filter q).length + 1 = (l.filter p).length := by
  induction l with
  | nil => simp at hk
  | cons a l ih =>
    obtain ⟨ha, hnd⟩ := List.nodup_cons.1 hl
    by_cases hak : a = k
    · subst hak
      have heq : l.filter q = l.filter p := by
        apply List.filter_congr
        intro x hx
        exact hpq x (fun h => ha (h ▸ hx))
      simp [List.filter_cons, hq, hp, heq]
    · have hkl : k ∈ l := by
        rcases List.mem_cons.1 hk with h | h
        · exact absurd h.symm hak
        · exact h
      have := ih hnd hkl
      rw [List.filter_cons, List.filter_cons, hpq a hak]
      by_cases hpa : p a = true
      · simp [hpa]; omega
      · simp [hpa]; omega

/-- Clearing the flag of an active entry lowers the number of active entries by one. -/
theorem activeCount_deactivate (c : Catalog) (k : Nat) (hk : k < c.entry_count)
    (hkl : k < c.table.length) (hact : (c.entry k).active ≠ 0) :
    Catalog.activeCount { table := c.table.set k { c.entry k with active := 0 },
                          entry_count := c.entry_count } + 1 = c.activeCount := by
  unfold Catalog.activeCount
  simp only []
  apply filter_length_remove _ _ _ k (List.nodup_range _) (List.mem_range.2 hk)
  · rw [entry_deactivate c k k hkl, if_pos rfl]
    simp
  · simpa using hact
  · intro i hi
    rw [entry_deactivate c k i hkl, if_neg hi]

/-- Clearing a flag creates no active entry for any pair. -/
theorem activeFor_of_deactivate (c : Catalog) (k i : Nat) (p n : List Byte)
    (hkl : k < c.table.length)
    (h : Catalog.activeFor { table := c.table.set k { c.entry k with active := 0 },
                             entry_count := c.entry_count } p n i) :
    c.activeFor p n i := by
  unfold Catalog.activeFor at h ⊢
  rw [entry_deactivate c k i hkl] at h
  by_cases hik : i = k
  · rw [if_pos hik] at h
    exact absurd rfl h.1
  · rw [if_neg hik] at h
    exact h

/-- After a Deregister request answered Acknowledge in a state with 200 active entries,
199 entries are active, `entry_count` is unchanged, and every Register request for a pair
without an active entry is refused for lack of room. -/
theorem register_after_deregister (c : Catalog) (rd r : register_pdu)
    (hfull : c.activeCount = MAX_ENTRIES)
    (hack : (handle_deregister c rd).2 =
      .simple (send_simple ACKNOWLEDGEMENT (lit "Deregistered")))
    (hnew : ¬ ∃ i, i < (handle_deregister c rd).1.entry_count ∧
      (handle_deregister c rd).1.activeFor r.peerName r.contentName i) :
    (handle_deregister c rd).1.activeCount = MAX_ENTRIES - 1 ∧
    (handle_deregister c rd).1.entry_count = c.entry_count ∧
    handle_register (handle_deregister c rd).1 r =
      ((handle_deregister c rd).1, .simple (send_simple ERROR (lit "Server storage full"))) := by
  obtain ⟨k, h1, h2, h3, heq⟩ := handle_deregister_of_ack c rd hack
  rw [heq] at hnew ⊢
  have hcount := activeCount_deactivate c k h1 h2 h3
  have hle : MAX_ENTRIES ≤ c.entry_count := by
    rw [← hfull]; exact activeCount_le c
  have hc2 :
      Catalog.activeCount
        { table := c.table.set k { c.entry k with active := 0 },
          entry_count := c.entry_count } = MAX_ENTRIES - 1 := by
    rw [hfull] at hcount
    unfold MAX_ENTRIES at hcount ⊢
    omega
  refine ⟨hc2, rfl, ?_⟩
  exact handle_register_of_full _ r
    (fun i hi hm => hnew ⟨i, hi, (activeFor_iff _ _ _ i).2 hm⟩) hle

theorem MAX_ENTRIES_pos : 0 < MAX_ENTRIES := by
  unfold MAX_ENTRIES; omega

theorem find_exact_catalogFull_zero :
    find_exact catalogFull fullDeregister.peerName fullDeregister.contentName = ((0 : Nat) : Int) := by
  rw [find_exact_eq_index]
  have h0 : 0 < MAX_ENTRIES := MAX_ENTRIES_pos
  refine ⟨by rw [catalogFull_entry_count]; exact h0, ?_,
    fun j hj => absurd hj (Nat.not_lt_zero j)⟩
  unfold Catalog.matchesExact
  rw [catalogFull_entry 0 h0]
  exact ⟨by show (1 : Int) ≠ 0; decide, strncmp_self _ _, strncmp_self _ _⟩

theorem catalogFull_deregister_ack :
    (handle_deregister catalogFull fullDeregister).2 =
      .simple (send_simple ACKNOWLEDGEMENT (lit "Deregistered")) := by
  rw [handle_deregister_of_found catalogFull fullDeregister 0 find_exact_catalogFull_zero]

/-- Deregistration creates no active entry for any pair. -/
theorem no_activeFor_after_deregister (c : Catalog) (rd : register_pdu) (p n : List Byte)
    (h : ¬ ∃ i, i < c.entry_count ∧ c.activeFor p n i) :
    ¬ ∃ i, i < (handle_deregister c rd).1.entry_count ∧
      (handle_deregister c rd).1.activeFor p n i := by
  rcases find_exact_cases c rd.peerName rd.contentName with he | ⟨k, hk⟩
  · rw [handle_deregister_of_none c rd he]; exact h
  · obtain ⟨_, h2, _⟩ := (find_exact_eq_index _ _ _ _).1 hk
    rw [handle_deregister_of_found c rd k hk]
    rintro ⟨i, hi, hm⟩
    exact h ⟨i, hi, activeFor_of_deactivate c k i p n (lt_length_of_active c k h2.1) hm⟩

theorem catalogFull_deregister_no_Z :
    ¬ ∃ i, i < (handle_deregister catalogFull fullDeregister).1.entry_count ∧
      (handle_deregister catalogFull fullDeregister).1.activeFor (name10 "Z") (name10 "X") i :=
  no_activeFor_after_deregister catalogFull fullDeregister (name10 "Z") (name10 "X")
    (catalogFull_no_Z (name10 "X"))

/-- C11 (counterexample). In the reachable state with 200 active entries, the Deregister
request of the first publisher is answered Acknowledge, and the next Register request, for
the pair (`Z`, `X`) that has no active entry, is answered Error "Server storage full", not
Acknowledge, and adds no entry: the slot of the deactivated entry is not given out again. -/
theorem deregister_frees_no_slot :
    Reachable catalogFull ∧ catalogFull.activeCount = MAX_ENTRIES ∧
    (handle_deregister catalogFull fullDeregister).2 =
      .simple (send_simple ACKNOWLEDGEMENT (lit "Deregistered")) ∧
    (¬ ∃ i, i < (handle_deregister catalogFull fullDeregister).1.entry_count ∧
      (handle_deregister catalogFull fullDeregister).1.activeFor (name10 "Z") (name10 "X") i) ∧
    handle_register (handle_deregister catalogFull fullDeregister).1 (mkRegister "Z" "X" 7000) =
      ((handle_deregister catalogFull fullDeregister).1,
        .simple (send_simple ERROR (lit "Server storage full"))) ∧
    (handle_register (handle_deregister catalogFull fullDeregister).1
        (mkRegister "Z" "X" 7000)).2 ≠
      .simple (send_simple ACKNOWLEDGEMENT (lit "Registered")) := by
  have hreg := (register_after_deregister catalogFull fullDeregister (mkRegister "Z" "X" 7000)
    catalogFull_activeCount catalogFull_deregister_ack catalogFull_deregister_no_Z).2.2
  refine ⟨catalogFull_reachable, catalogFull_activeCount, catalogFull_deregister_ack,
    catalogFull_deregister_no_Z, hreg, ?_⟩
  rw [hreg]
  show Datagram.simple (send_simple ERROR (lit "Server storage full")) ≠
    Datagram.simple (send_simple ACKNOWLEDGEMENT (lit "Registered"))
  decide

/-- C11 (amended). Deactivation frees no capacity: from any catalog state holding the
maximum number (200) of active entries, once one Deregister request has been answered
Acknowledge, 199 entries are active and `entry_count` is unchanged, and the next Register
request for a (publisher, content) pair that has no active entry is answered with the
capacity error Error "Server storage full" and leaves the catalog unchanged, and so is every
further such Register request after it. -/
theorem deregister_keeps_capacity_error (c : Catalog) (rd r : register_pdu)
    (hfull : c.activeCount = MAX_ENTRIES)
    (hack : (handle_deregister c rd).2 =
      .simple (send_simple ACKNOWLEDGEMENT (lit "Deregistered")))
    (hnew : ¬ ∃ i, i < (handle_deregister c rd).1.entry_count ∧
      (handle_deregister c rd).1.activeFor r.peerName r.contentName i) :
    (handle_deregister c rd).1.activeCount = MAX_ENTRIES - 1 ∧
    (handle_deregister c rd).1.entry_count = c.entry_count ∧
    handle_register (handle_deregister c rd).1 r =
      ((handle_deregister c rd).1, .simple (send_simple ERROR (lit "Server storage full"))) ∧
    (∀ r2 : register_pdu,
      (¬ ∃ i, i < (handle_deregister c rd).1.entry_count ∧
        (handle_deregister c rd).1.activeFor r2.peerName r2.contentName i) →
      handle_register (handle_register (handle_deregister c rd).1 r).1 r2 =
        ((handle_deregister c rd).1,
          .simple (send_simple ERROR (lit "Server storage full")))) := by
  obtain ⟨h1, h2, h3⟩ := register_after_deregister c rd r hfull hack hnew
  refine ⟨h1, h2, h3, fun r2 hnew2 => ?_⟩
  rw [h3]
  exact (register_after_deregister c rd r2 hfull hack hnew2).2.2

/-- The amended statement at the reachable state with 200 active entries. -/
theorem deregister_keeps_capacity_error_witness :
    catalogFull.activeCount = MAX_ENTRIES ∧
    (handle_deregister catalogFull fullDeregister).2 =
      .simple (send_simple ACKNOWLEDGEMENT (lit "Deregistered")) ∧
    (¬ ∃ i, i < (handle_deregister catalogFull fullDeregister).1.entry_count ∧
      (handle_deregister catalogFull fullDeregister).1.activeFor (name10 "Z") (name10 "X") i) ∧
    (handle_deregister catalogFull fullDeregister).1.activeCount = MAX_ENTRIES - 1 ∧
    handle_register (handle_deregister catalogFull fullDeregister).1 (mkRegister "Z" "X" 7000) =
      ((handle_deregister catalogFull fullDeregister).1,
        .simple (send_simple ERROR (lit "Server storage full"))) :=
  ⟨catalogFull_activeCount, catalogFull_deregister_ack, catalogFull_deregister_no_Z,
   (deregister_keeps_capacity_error catalogFull fullDeregister (mkRegister "Z" "X" 7000)
      catalogFull_activeCount catalogFull_deregister_ack catalogFull_deregister_no_Z).1,
   (deregister_keeps_capacity_error catalogFull fullDeregister (mkRegister "Z" "X" 7000)
      catalogFull_activeCount catalogFull_deregister_ack catalogFull_deregister_no_Z).2.2.1⟩

/-! ## The receive-and-dispatch loop -/

/-- The record decoded after a non-empty datagram has been received has the datagram's
first byte as its type. -/
theorem ofBytes_type (decodeAddr : List Byte → sockaddr_in) (buf d : List Byte) (hd : d ≠ []) :
    (register_pdu.ofBytes decodeAddr (recvfrom buf (some d) SIZEOF_REGISTER_PDU).2).type =
      d.headD 0 := by
  cases d with
  | nil => exact absurd rfl hd
  | cons x t => rfl

theorem recvfrom_pos (buf d : List Byte) (hd : d ≠ []) :
    ¬ (recvfrom buf (some d) SIZEOF_REGISTER_PDU).1 < 1 := by
  cases d with
  | nil => exact absurd rfl hd
  | cons x t =>
    unfold recvfrom SIZEOF_REGISTER_PDU
    simp only [List.take_succ_cons, List.length_cons]
    omega

/-- One iteration on a datagram of at least one byte is the dispatch of the decoded record. -/
theorem main_iteration_of_nonempty (decodeAddr : List Byte → sockaddr_in) (c : Catalog)
    (buf d : List Byte) (hd : d ≠ []) :
    main_iteration decodeAddr c buf (some d) =
      ((dispatch c (register_pdu.ofBytes decodeAddr
          (recvfrom buf (some d) SIZEOF_REGISTER_PDU).2)).1,
        some (dispatch c (register_pdu.ofBytes decodeAddr
          (recvfrom buf (some d) SIZEOF_REGISTER_PDU).2)).2) := by
  unfold main_iteration
  simp only []
  rw [if_neg (recvfrom_pos buf d hd)]

theorem dispatch_online (c : Catalog) (rpdu : register_pdu) (h : rpdu.type = ONLINE) :
    dispatch c rpdu = handle_online c := by
  unfold dispatch
  have h1 : ¬ rpdu.type = REGISTER := by rw [h]; decide
  rw [if_neg h1, if_pos h]

set_option maxRecDepth 16000 in
/-- C12 (counterexample). A one-byte datagram holding `O` is shorter than the record, yet
one iteration answers it with the Online reply; a 21-byte datagram holding `R` and two names
is shorter than the record, yet it is answered Acknowledge and adds an entry to the
catalog. -/
theorem undersized_datagram_dispatched :
    datagramOnline.length < SIZEOF_REGISTER_PDU ∧
    main_iteration decodeAddrExample Catalog.empty (zeros SIZEOF_REGISTER_PDU)
        (some datagramOnline) =
      (Catalog.empty, some (.simple (send_simple ONLINE (lit "No content registered")))) ∧
    datagramRegister.length < SIZEOF_REGISTER_PDU ∧
    (main_iteration decodeAddrExample Catalog.empty (zeros SIZEOF_REGISTER_PDU)
        (some datagramRegister)).2 =
      some (.simple (send_simple ACKNOWLEDGEMENT (lit "Registered"))) ∧
    (main_iteration decodeAddrExample Catalog.empty (zeros SIZEOF_REGISTER_PDU)
        (some datagramRegister)).1.entry_count = 1 ∧
    (main_iteration decodeAddrExample Catalog.empty (zeros SIZEOF_REGISTER_PDU)
        (some datagramRegister)).1 ≠ Catalog.empty := by
  decide

/-- C12 (amended). Empty datagrams are dropped: for every catalog state and whatever the
buffer held before, when the receive fails or the received datagram has length 0, one
iteration of the receive-and-dispatch loop sends no response and leaves the catalog
unchanged; every received datagram of at least one byte, whatever its length (also below
`sizeof(struct register_pdu)`), is decoded with its first byte as the record type, the
bytes it does not cover keeping the buffer's previous content, is dispatched, and is
answered with exactly one response; in particular a first byte `O` is answered with the
Online reply and a first byte that is no request type with Error "Unknown request", the
catalog being unchanged in both cases. -/
theorem main_iteration_effect (decodeAddr : List Byte → sockaddr_in) (c : Catalog)
    (buf : List Byte) :
    main_iteration decodeAddr c buf none = (c, none) ∧
    main_iteration decodeAddr c buf (some []) = (c, none) ∧
    (∀ d : List Byte, d ≠ [] →
      (register_pdu.ofBytes decodeAddr (recvfrom buf (some d) SIZEOF_REGISTER_PDU).2).type =
        d.headD 0 ∧
      main_iteration decodeAddr c buf (some d) =
        ((dispatch c (register_pdu.ofBytes decodeAddr
            (recvfrom buf (some d) SIZEOF_REGISTER_PDU).2)).1,
          some (dispatch c (register_pdu.ofBytes decodeAddr
            (recvfrom buf (some d) SIZEOF_REGISTER_PDU).2)).2)) ∧
    (∀ d : List Byte, d ≠ [] → d.headD 0 = ONLINE →
      main_iteration decodeAddr c buf (some d) = (c, some (handle_online c).2)) ∧
    (∀ d : List Byte, d ≠ [] → d.headD 0 ≠ REGISTER → d.headD 0 ≠ ONLINE →
      d.headD 0 ≠ SEARCH → d.headD 0 ≠ DEREGISTER → d.headD 0 ≠ QUIT →
      main_iteration decodeAddr c buf (some d) =
        (c, some (.simple (send_simple ERROR (lit "Unknown request"))))) := by
  refine ⟨rfl, rfl, fun d hd => ⟨ofBytes_type decodeAddr buf d hd,
    main_iteration_of_nonempty decodeAddr c buf d hd⟩, fun d hd ho => ?_,
    fun d hd h1 h2 h3 h4 h5 => ?_⟩
  · rw [main_iteration_of_nonempty decodeAddr c buf d hd,
      dispatch_online c _ ((ofBytes_type decodeAddr buf d hd).trans ho)]
    rfl
  · rw [main_iteration_of_nonempty decodeAddr c buf d hd]
    have ht := ofBytes_type decodeAddr buf d hd
    unfold dispatch
    rw [ht, if_neg h1, if_neg h2, if_neg h3, if_neg h4, if_neg h5]

/-- The amended statement at the empty catalog and a zeroed buffer: the empty datagram is
dropped and the one-byte datagram `O` is answered. -/
theorem main_iteration_effect_witness :
    main_iteration decodeAddrExample Catalog.empty (zeros SIZEOF_REGISTER_PDU) (some []) =
      (Catalog.empty, none) ∧
    main_iteration decodeAddrExample Catalog.empty (zeros SIZEOF_REGISTER_PDU)
        (some datagramOnline) =
      (Catalog.empty, some (handle_online Catalog.empty).2) :=
  ⟨(main_iteration_effect decodeAddrExample Catalog.empty (zeros SIZEOF_REGISTER_PDU)).2.1,
   (main_iteration_effect decodeAddrExample Catalog.empty (zeros SIZEOF_REGISTER_PDU)).2.2.2.1
      datagramOnline (by decide) (by decide)⟩

end P2P
